import Mathlib

/-!
Verification development for the `bdk_chain` local chain tracker
(`crates/chain/src/local_chain.rs` and `crates/chain/src/chain_data.rs`).

The Rust code is shallowly embedded:
* `BlockHash` is abstracted as a natural number with decidable equality
  (an opaque 32-byte value; only equality is ever consumed).
* `BTreeMap` values are embedded as ascending sorted association lists
  (`HMap`); every map the program builds is constructed through the
  `BTreeMap` operations modelled below, which preserve sortedness, so list
  equality coincides with map equality.
* Heights are `u32` in Rust.  No height arithmetic in `local_chain.rs` can
  overflow (only comparisons, `checked_sub 1` and `saturating_sub 1` occur),
  so heights are embedded as `Nat`.  In `chain_data.rs` the coinbase
  maturity check performs a `u32` addition that can wrap; there the wrap is
  modelled explicitly with `% 2 ^ 32`.
* Fallible operations return explicit result values.  A Rust panic
  (`expect` / `unreachable!`) is modelled by a dedicated `diverged`
  constructor.  Methods taking `&mut self` are embedded as functions that
  return the post-call state; the state attached to an error constructor is
  the value `self` held at the corresponding `return Err` statement.
-/

namespace Bdk

/-- An opaque block hash (32-byte value with decidable equality). -/
abbrev Hash := Nat

/-- `BlockId`: a `(height, hash)` pair identifying one block. -/
structure BlockId where
  height : Nat
  hash : Hash
deriving DecidableEq, Repr

/-! ### Sorted association lists: the embedding of `BTreeMap u32 v` -/

/-- Embedding of `BTreeMap<u32, v>` as an ascending sorted association list. -/
abbrev HMap (α : Type) := List (Nat × α)

/-- Keys are strictly ascending: the `BTreeMap` representation invariant. -/
def hmSorted {α : Type} (m : HMap α) : Prop :=
  List.Pairwise (fun a b => a.1 < b.1) m

/-- `BTreeMap::get`. -/
def hmLookup {α : Type} : HMap α → Nat → Option α
  | [], _ => none
  | (k', v) :: rest, k => if k = k' then some v else hmLookup rest k

/-- `BTreeMap::insert` (replacing an existing entry at the same key). -/
def hmInsert {α : Type} : HMap α → Nat → α → HMap α
  | [], k, v => [(k, v)]
  | (k', v') :: rest, k, v =>
    if k < k' then (k, v) :: (k', v') :: rest
    else if k = k' then (k, v) :: rest
    else (k', v') :: hmInsert rest k v

/-- `BTreeMap::remove` (by exact key). -/
def hmErase {α : Type} (m : HMap α) (k : Nat) : HMap α :=
  m.filter (fun p => p.1 ≠ k)

/-- The map returned by `BTreeMap::split_off(&k)`: all entries with key `≥ k`. -/
def hmSplitOffGe {α : Type} (k : Nat) (m : HMap α) : HMap α :=
  m.filter (fun p => k ≤ p.1)

/-- The entries kept by the receiver after `BTreeMap::split_off(&k)`: keys `< k`. -/
def hmKeepLt {α : Type} (k : Nat) (m : HMap α) : HMap α :=
  m.filter (fun p => p.1 < k)

/-- The `ChangeSet` of `local_chain.rs`: `BTreeMap<u32, Option<BlockHash>>`. -/
abbrev ChangeSet := HMap (Option Hash)

/-! ### CheckPoint -/

/-- `CheckPoint` / `CPInner`: a node of the persistent descending-height
linked list, holding a block id and an optional previous node.  The
`Option` in `prev: Option<Arc<CPInner>>` is fused into the constructors
(`base` is a node with `prev = None`). -/
inductive CheckPoint where
  | base (block : BlockId)
  | cons (block : BlockId) (prev : CheckPoint)
deriving DecidableEq, Repr

namespace CheckPoint

/-- `CheckPoint::block_id`. -/
def block_id : CheckPoint → BlockId
  | .base b => b
  | .cons b _ => b

/-- `CheckPoint::height`. -/
def height (cp : CheckPoint) : Nat := cp.block_id.height

/-- `CheckPoint::hash`. -/
def hash (cp : CheckPoint) : Hash := cp.block_id.hash

/-- `CheckPoint::prev`. -/
def prevCP : CheckPoint → Option CheckPoint
  | .base _ => none
  | .cons _ p => some p

/-- `CheckPoint::new`: a single-node list. -/
def new (block : BlockId) : CheckPoint := .base block

/-- `CheckPoint::push`: succeeds iff the new block is strictly higher;
on failure the original handle is returned as the error payload. -/
def push (cp : CheckPoint) (block : BlockId) : Except CheckPoint CheckPoint :=
  if cp.height < block.height then .ok (.cons block cp)
  else .error cp

/-- The blocks yielded by `CheckPoint::iter` (tip first, walking `prev`). -/
def toList : CheckPoint → List BlockId
  | .base b => [b]
  | .cons b p => b :: toList p

/-- Loop body of `CheckPoint::extend` (`orig` is the pre-extend handle that
is returned on failure). -/
def extendGo (orig : CheckPoint) : CheckPoint → List BlockId → Except CheckPoint CheckPoint
  | curr, [] => .ok curr
  | curr, b :: rest =>
    match curr.push b with
    | .ok c => extendGo orig c rest
    | .error _ => .error orig

/-- `CheckPoint::extend`: repeated `push`; on the first failure the original
pre-extend handle is the error payload. -/
def extend (cp : CheckPoint) (blocks : List BlockId) : Except CheckPoint CheckPoint :=
  extendGo cp cp blocks

/-- Loop body of `CheckPoint::from_block_ids`. -/
def fromBlockIdsGo : CheckPoint → List BlockId → Except (Option CheckPoint) CheckPoint
  | acc, [] => .ok acc
  | acc, b :: rest =>
    match acc.push b with
    | .ok c => fromBlockIdsGo c rest
    | .error c => .error (some c)

/-- `CheckPoint::from_block_ids`: folds `push` over the ids; an empty input
yields error `none`, a non-increasing height yields the last successful
checkpoint as `some`. -/
def from_block_ids : List BlockId → Except (Option CheckPoint) CheckPoint
  | [] => .error none
  | b :: rest => fromBlockIdsGo (new b) rest

end CheckPoint

/-- `Update`: an update tip plus the `introduce_older_blocks` flag. -/
structure Update where
  tip : CheckPoint
  introduce_older_blocks : Bool

/-! ### Error types -/

/-- `MissingGenesisError`. -/
structure MissingGenesisError where
deriving DecidableEq, Repr

/-- `CannotConnectError`. -/
structure CannotConnectError where
  try_include_height : Nat
deriving DecidableEq, Repr

/-- `AlterCheckPointError`. -/
structure AlterCheckPointError where
  height : Nat
  original_hash : Hash
  update_hash : Option Hash
deriving DecidableEq, Repr

/-- `ApplyHeaderError`. -/
inductive ApplyHeaderError where
  | InconsistentBlocks
  | CannotConnect (e : CannotConnectError)
deriving DecidableEq, Repr

/-- Decidable equality of `Except` results (used to evaluate the embedded
functions on concrete inputs). -/
instance {ε α : Type} [DecidableEq ε] [DecidableEq α] : DecidableEq (Except ε α) := fun x y =>
  match x, y with
  | .ok a, .ok b =>
    if h : a = b then .isTrue (by rw [h]) else .isFalse (by intro hc; cases hc; exact h rfl)
  | .ok _, .error _ => .isFalse (by intro h; cases h)
  | .error _, .ok _ => .isFalse (by intro h; cases h)
  | .error e, .error f =>
    if h : e = f then .isTrue (by rw [h]) else .isFalse (by intro hc; cases hc; exact h rfl)

/-! ### merge_chains -/

/-- The local variables of the `merge_chains` loop. -/
structure MergeState where
  changeset : ChangeSet
  prevOrig : Option BlockId
  prevUpdate : Option BlockId
  poaFound : Bool
  prevOrigInv : Bool
  potInv : List Nat
deriving Repr

/-- Drain of `potentially_invalidated_heights` into the changeset
(each height mapped to `None`). -/
def drainInv (cs : ChangeSet) (hs : List Nat) : ChangeSet :=
  hs.foldl (fun c h => hmInsert c h none) cs

/-- The check performed after the `merge_chains` loop: if no point of
agreement was found and the last original block was not invalidated, fail
with that block's height. -/
def mergeFinish (s : MergeState) : Except CannotConnectError ChangeSet :=
  if s.prevOrigInv = false ∧ s.poaFound = false then
    match s.prevOrig with
    | some po => .error ⟨po.height⟩
    | none => .ok s.changeset
  else .ok s.changeset

/-- The `merge_chains` loop over the two descending block lists.  The list
heads play the role of the filled cursors `curr_orig` / `curr_update`; the
four cases mirror the four reachable match arms of the Rust loop.  The
first argument is recursion fuel: every loop iteration consumes at least
one block from one of the two lists, so `merge_chains` passes the sum of
the list lengths and the fuel never runs out (the out-of-fuel row is
unreachable; fuel makes the definition structurally recursive and hence
computable by the kernel).  The `Arc::as_ptr` short-circuit
(OPTIMIZATION 2) is not representable in a value embedding and is omitted:
pointer-equal tails are content-equal, for which continuing the walk adds
nothing to the changeset, so the result is unchanged. -/
def mergeLoop (introduce : Bool) :
    Nat → List BlockId → List BlockId → MergeState → Except CannotConnectError ChangeSet
  | _, [], [], s => mergeFinish s
  | _, o :: _, [], s =>
    -- original-only block with the update exhausted: record it and break
    mergeFinish
      { s with potInv := s.potInv ++ [o.height], prevOrigInv := false, prevOrig := some o }
  | 0, _, _, _ => .error ⟨0⟩  -- out of fuel: unreachable from `merge_chains`
  | fuel + 1, [], u :: us, s =>
    -- update block that does not exist in the original chain (orig exhausted)
    mergeLoop introduce fuel [] us
      { s with changeset := hmInsert s.changeset u.height (some u.hash), prevUpdate := some u }
  | fuel + 1, o :: os, u :: us, s =>
    if o.height < u.height then
      -- update block that does not exist in the original chain
      mergeLoop introduce fuel (o :: os) us
        { s with changeset := hmInsert s.changeset u.height (some u.hash), prevUpdate := some u }
    else if u.height < o.height then
      -- original block that is not in the update
      mergeLoop introduce fuel os (u :: us)
        { s with potInv := s.potInv ++ [o.height], prevOrigInv := false, prevOrig := some o }
    else
      -- blocks at the same height
      if o.hash = u.hash then
        -- the `if let (Some(prev_orig), Some(_)) = ...` ambiguity check
        if s.prevOrigInv = false ∧ s.poaFound = false ∧
            s.prevOrig.isSome ∧ s.prevUpdate.isSome then
          .error ⟨(s.prevOrig.getD o).height⟩
        else if introduce = false then .ok s.changeset
        else
          mergeLoop introduce fuel os us
            { s with poaFound := true, prevOrigInv := false,
                     prevOrig := some o, prevUpdate := some u }
      else
        mergeLoop introduce fuel os us
          { s with
            changeset := drainInv (hmInsert s.changeset u.height (some u.hash)) s.potInv,
            potInv := [], prevOrigInv := true, prevOrig := some o, prevUpdate := some u }

/-- `merge_chains`. -/
def merge_chains (original_tip update_tip : CheckPoint) (introduce_older_blocks : Bool) :
    Except CannotConnectError ChangeSet :=
  mergeLoop introduce_older_blocks
    (original_tip.toList.length + update_tip.toList.length)
    original_tip.toList update_tip.toList
    ⟨[], none, none, false, false, []⟩

/-! ### LocalChain -/

/-- `LocalChain`: current tip, height-to-hash index, and advisory birthday. -/
structure LocalChain where
  tip : CheckPoint
  index : HMap Hash
  birthday : Nat
deriving DecidableEq, Repr

/-- Result of a `&mut self` method of `LocalChain`: the post-call state with
the returned value or error, or divergence (a Rust panic). -/
inductive MRes (ε α : Type) where
  | ok (self : LocalChain) (val : α)
  | err (self : LocalChain) (e : ε)
  | diverged
deriving DecidableEq, Repr

/-- Result of an associated `LocalChain` constructor returning `Result`. -/
inductive CRes (ε α : Type) where
  | ok (val : α)
  | err (e : ε)
  | diverged
deriving DecidableEq, Repr

/-- The `impl PartialEq for LocalChain` ("only compare the overlayed
lifetime"). -/
def LocalChain.beq (a b : LocalChain) : Bool :=
  if b.birthday < a.birthday then
    decide (hmLookup a.index 0 = hmLookup b.index 0) &&
      decide (a.index = hmSplitOffGe a.birthday b.index)
  else if a.birthday < b.birthday then
    decide (hmLookup a.index 0 = hmLookup b.index 0) &&
      decide (hmSplitOffGe b.birthday a.index = b.index)
  else decide (a.index = b.index)

namespace LocalChain

/-- `LocalChain::initial_changeset`: every index entry as `Some`. -/
def initial_changeset (c : LocalChain) : ChangeSet :=
  c.index.map (fun p => (p.1, some p.2))

/-- `LocalChain::from_genesis_hash`. -/
def from_genesis_hash (hash : Hash) : LocalChain × ChangeSet :=
  let chain : LocalChain :=
    { birthday := 0, tip := CheckPoint.new ⟨0, hash⟩, index := [(0, hash)] }
  (chain, chain.initial_changeset)

/-- `LocalChain::from_block_id`: index holds the genesis and the given
block; the tip node has no `prev`. -/
def from_block_id (genesis_hash : Hash) (block_id : BlockId) : LocalChain × ChangeSet :=
  let chain : LocalChain :=
    { birthday := block_id.height
      tip := CheckPoint.new block_id
      index := hmInsert (hmInsert [] 0 genesis_hash) block_id.height block_id.hash }
  (chain, chain.initial_changeset)

end LocalChain

/-- The extension-collecting walk of `apply_changeset`: insert every
checkpoint with height `≥ start` into the accumulator; stop at the first
lower checkpoint, which becomes the base. -/
def collectExtGo (start : Nat) : HMap Hash → CheckPoint → HMap Hash × Option CheckPoint
  | acc, .base b =>
    if start ≤ b.height then (hmInsert acc b.height b.hash, none)
    else (acc, some (.base b))
  | acc, .cons b p =>
    if start ≤ b.height then collectExtGo start (hmInsert acc b.height b.hash) p
    else (acc, some (.cons b p))

/-- One changeset entry applied to the extension map (`Some` writes,
`None` deletes). -/
def applyCsStep (m : HMap Hash) (e : Nat × Option Hash) : HMap Hash :=
  match e.2 with
  | some h => hmInsert m e.1 h
  | none => hmErase m e.1

/-- The changeset applied onto the extension map, in ascending key order. -/
def applyCsAll (m : HMap Hash) (cs : ChangeSet) : HMap Hash :=
  cs.foldl applyCsStep m

/-- Map entries viewed as block ids (ascending height order). -/
def toBlockIds (m : HMap Hash) : List BlockId :=
  m.map (fun p => ⟨p.1, p.2⟩)

/-- The walk of `LocalChain::reindex`: reinsert every checkpoint with height
`≥ from`, breaking at the first lower one. -/
def reindexGo (from_ : Nat) : HMap Hash → CheckPoint → HMap Hash
  | acc, .base b =>
    if b.height < from_ then acc else hmInsert acc b.height b.hash
  | acc, .cons b p =>
    if b.height < from_ then acc else reindexGo from_ (hmInsert acc b.height b.hash) p

namespace LocalChain

/-- `LocalChain::reindex`: truncate the index to keys `< from`, then walk
the tip reinserting every checkpoint with height `≥ from`. -/
def reindexIdx (c : LocalChain) (from_ : Nat) : HMap Hash :=
  reindexGo from_ (hmKeepLt from_ c.index) c.tip

/-- The loop of `LocalChain::from_blocks` folding `push` over the entries;
outer `none` models the `expect("BTreeMap is ordered")` panic. -/
def foldTip : Option CheckPoint → List (Nat × Hash) → Option (Option CheckPoint)
  | t, [] => some t
  | none, (h, s) :: rest => foldTip (some (CheckPoint.new ⟨h, s⟩)) rest
  | some cp, (h, s) :: rest =>
    match cp.push ⟨h, s⟩ with
    | .ok c => foldTip (some c) rest
    | .error _ => none

/-- `LocalChain::from_blocks`. -/
def from_blocks (blocks : HMap Hash) : CRes MissingGenesisError LocalChain :=
  if (hmLookup blocks 0).isNone then .err ⟨⟩
  else
    match foldTip none blocks with
    | none => .diverged
    | some none => .diverged  -- `expect("already checked to have genesis")`
    | some (some tip) => .ok { birthday := 0, index := blocks, tip := tip }

/-- `LocalChain::apply_changeset`.  The two `debug_assert!` consistency
checks of the source are elided (they are no-ops in release builds and are
proved as theorems below). -/
def apply_changeset (self : LocalChain) (changeset : ChangeSet) :
    MRes MissingGenesisError Unit :=
  match changeset with
  | [] => .ok self ()
  | (start_height, _) :: _ =>
    let res := collectExtGo start_height [] self.tip
    let extension := applyCsAll res.1 changeset
    match res.2 with
    | some base =>
      match base.extend (toBlockIds extension) with
      | .ok new_tip =>
        let self1 : LocalChain := { self with tip := new_tip }
        .ok { self1 with index := self1.reindexIdx start_height } ()
      | .error _ => .diverged  -- `expect("extension is strictly greater than base")`
    | none =>
      match from_blocks extension with
      | .ok chain =>
        let self1 : LocalChain := { self with tip := chain.tip }
        .ok { self1 with index := self1.reindexIdx start_height } ()
      | .err e => .err self e  -- propagated by `?` before any mutation
      | .diverged => .diverged

/-- `LocalChain::from_changeset`. -/
def from_changeset (changeset : ChangeSet) : CRes MissingGenesisError LocalChain :=
  match (hmLookup changeset 0).join with
  | none => .err ⟨⟩
  | some genesis_hash =>
    let chain := (from_genesis_hash genesis_hash).1
    match chain.apply_changeset changeset with
    | .ok c _ => .ok c
    | .err _ e => .err e
    | .diverged => .diverged

/-- `LocalChain::from_tip`: adopt the tip, reindex from 0, and require a
genesis entry. -/
def from_tip (tip : CheckPoint) : CRes MissingGenesisError LocalChain :=
  let chain : LocalChain := { birthday := 0, tip := tip, index := [] }
  let chain := { chain with index := chain.reindexIdx 0 }
  if (hmLookup chain.index 0).isNone then .err ⟨⟩ else .ok chain

/-- `LocalChain::apply_update`: merge, then apply the resulting changeset. -/
def apply_update (self : LocalChain) (update : Update) :
    MRes CannotConnectError ChangeSet :=
  match merge_chains self.tip update.tip update.introduce_older_blocks with
  | .error e => .err self e
  | .ok changeset =>
    match self.apply_changeset changeset with
    | .ok s _ => .ok s changeset
    | .err s _ => .err s ⟨0⟩  -- `map_err(|_| CannotConnectError { try_include_height: 0 })`
    | .diverged => .diverged

/-- `LocalChain::insert_block`. -/
def insert_block (self : LocalChain) (block_id : BlockId) :
    MRes AlterCheckPointError ChangeSet :=
  match hmLookup self.index block_id.height with
  | some original_hash =>
    if original_hash ≠ block_id.hash then
      .err self ⟨block_id.height, original_hash, some block_id.hash⟩
    else .ok self []
  | none =>
    let changeset : ChangeSet := hmInsert [] block_id.height (some block_id.hash)
    match self.apply_changeset changeset with
    | .ok s _ => .ok s changeset
    | .err s _ =>
      -- error mapping reads `self.genesis_hash()`, which panics without genesis
      match hmLookup s.index 0 with
      | none => .diverged
      | some g => .err s ⟨0, g, (hmLookup changeset 0).join⟩
    | .diverged => .diverged

/-- `LocalChain::disconnect_from`. -/
def disconnect_from (self : LocalChain) (block_id : BlockId) :
    MRes MissingGenesisError ChangeSet :=
  if hmLookup self.index block_id.height ≠ some block_id.hash then .ok self []
  else
    let changeset : ChangeSet :=
      (hmSplitOffGe block_id.height self.index).map (fun p => (p.1, none))
    match self.apply_changeset changeset with
    | .ok s _ => .ok s changeset
    | .err s e => .err s e
    | .diverged => .diverged

end LocalChain

/-- The observations `apply_header_connected_to` makes of a
`bitcoin::block::Header`: its own hash and `prev_blockhash`. -/
structure Header where
  block_hash : Hash
  prev_blockhash : Hash
deriving DecidableEq, Repr

namespace LocalChain

/-- Tail of `apply_header_connected_to`: build the update tip from
`[conn, prev, this]` and apply it. -/
def applyHeaderFinish (self : LocalChain) (conn prev : Option BlockId) (this : BlockId) :
    MRes ApplyHeaderError ChangeSet :=
  match CheckPoint.from_block_ids ([conn, prev, some this].filterMap id) with
  | .error _ => .diverged  -- `expect("block ids must be in order")`
  | .ok tip =>
    match self.apply_update ⟨tip, false⟩ with
    | .ok s cs => .ok s cs
    | .err s e => .err s (.CannotConnect e)
    | .diverged => .diverged

/-- `LocalChain::apply_header_connected_to`. -/
def apply_header_connected_to (self : LocalChain) (header : Header) (height : Nat)
    (connected_to : BlockId) : MRes ApplyHeaderError ChangeSet :=
  let this : BlockId := ⟨height, header.block_hash⟩
  let prev : Option BlockId :=
    if height = 0 then none else some ⟨height - 1, header.prev_blockhash⟩
  if connected_to = this ∨ some connected_to = prev then
    -- `connected_to` is redundant: drop it
    applyHeaderFinish self none prev this
  else if height - 1 ≤ connected_to.height then
    -- `conn.height >= height.saturating_sub(1)`
    .err self .InconsistentBlocks
  else
    applyHeaderFinish self (some connected_to) prev this

/-- `LocalChain::apply_header`: derive `connected_to` from the header itself;
the `InconsistentBlocks` case is the source's `unreachable!`. -/
def apply_header (self : LocalChain) (header : Header) (height : Nat) :
    MRes CannotConnectError ChangeSet :=
  let connected_to : BlockId :=
    if height = 0 then ⟨height, header.block_hash⟩
    else ⟨height - 1, header.prev_blockhash⟩
  match self.apply_header_connected_to header height connected_to with
  | .ok s cs => .ok s cs
  | .err _ .InconsistentBlocks => .diverged  -- `unreachable!`
  | .err s (.CannotConnect e) => .err s e
  | .diverged => .diverged

end LocalChain

/-! ### chain_data.rs -/

/-- Modelled from the spec: the `Anchor` trait lives in the crate root
(`crate::Anchor`), which is not under `src/`.  Per spec §3 it provides
`anchor_block() -> BlockId` and `confirmation_height_upper_bound() -> u32`
with default value the anchor block's height. -/
class Anchor (A : Type) where
  anchor_block : A → BlockId
  confirmation_height_upper_bound : A → Nat := fun a => (anchor_block a).height

export Anchor (anchor_block confirmation_height_upper_bound)

/-- `impl Anchor for BlockId`: the anchor block is the block itself (the
confirmation upper bound is the trait default, the block height). -/
instance : Anchor BlockId where
  anchor_block b := b

/-- `ConfirmationHeightAnchor`. -/
structure ConfirmationHeightAnchor where
  anchor_block : BlockId
  confirmation_height : Nat
deriving DecidableEq, Repr

/-- `impl Anchor for ConfirmationHeightAnchor`. -/
instance : Anchor ConfirmationHeightAnchor where
  anchor_block a := a.anchor_block
  confirmation_height_upper_bound a := a.confirmation_height

/-- `ChainPosition<A>`: confirmed under an anchor, or unconfirmed with a
last-seen unix timestamp. -/
inductive ChainPosition (A : Type) where
  | Confirmed (a : A)
  | Unconfirmed (last_seen : Nat)
deriving DecidableEq, Repr

/-- Modelled from the spec: `COINBASE_MATURITY` is a crate-root constant
(not under `src/`) with value 100 (spec §6). -/
def COINBASE_MATURITY : Nat := 100

/-- `FullTxOut<A>`.  `outpoint` and `txout` are opaque host values
(`OutPoint`, `TxOut`) that none of the embedded functions inspect. -/
structure FullTxOut (A : Type) where
  outpoint : Nat × Nat
  txout : Nat
  chain_position : ChainPosition A
  spent_by : Option (ChainPosition A × Nat)
  is_on_coinbase : Bool

namespace FullTxOut

/-- `FullTxOut::is_mature`.  `tip` and all heights are `u32`; the Rust
expression `age + 1 < COINBASE_MATURITY` is a `u32` addition, so the sum is
reduced `mod 2^32`.  `tip.saturating_sub(tx_height)` is `Nat` subtraction.
In the unconfirmed-coinbase arm the source fires `debug_assert!(false)` (a
release no-op) and returns `false`. -/
def is_mature {A : Type} [Anchor A] (t : FullTxOut A) (tip : Nat) : Bool :=
  if t.is_on_coinbase then
    match t.chain_position with
    | .Unconfirmed _ => false
    | .Confirmed anchor =>
      let tx_height := confirmation_height_upper_bound anchor
      let age := tip - tx_height
      if (age + 1) % 2 ^ 32 < COINBASE_MATURITY then false else true
  else true

/-- `FullTxOut::is_confirmed_and_spendable`. -/
def is_confirmed_and_spendable {A : Type} [Anchor A] (t : FullTxOut A) (tip : Nat) : Bool :=
  if t.is_mature tip = false then false
  else
    match t.chain_position with
    | .Unconfirmed _ => false
    | .Confirmed anchor =>
      let confirmation_height := confirmation_height_upper_bound anchor
      if tip < confirmation_height then false
      else
        match t.spent_by with
        | some (.Confirmed spending_anchor, _) =>
          if (anchor_block spending_anchor).height ≤ tip then false else true
        | _ => true

end FullTxOut

/-! ### Derived notions used by the specification statements -/

/-- The heights of a block list. -/
def heights (l : List BlockId) : List Nat := l.map BlockId.height

/-- The hash a chain (given as a descending block list) stores at height
`h`, if any. -/
def hashAt (l : List BlockId) (h : Nat) : Option Hash :=
  (l.find? (fun b => b.height == h)).map BlockId.hash

/-- Strictly descending heights: the shape of every checkpoint list that
the `CheckPoint` constructors can produce. -/
def StrictDesc (l : List BlockId) : Prop :=
  List.Pairwise (fun a b => b.height < a.height) l

instance (l : List BlockId) : Decidable (StrictDesc l) := by
  unfold StrictDesc; infer_instance

instance {α : Type} (m : HMap α) : Decidable (hmSorted m) := by
  unfold hmSorted; infer_instance

/-- Collect a block list into a height-keyed map (later entries win, as in
`collect::<BTreeMap<_, _>>()`). -/
def histGo (acc : HMap Hash) (l : List BlockId) : HMap Hash :=
  l.foldl (fun m b => hmInsert m b.height b.hash) acc

/-- The `(height, hash)` map of the checkpoints reachable from a tip; this
is the map `_check_index_is_consistent_with_tip` compares the index with. -/
def tipHistory (cp : CheckPoint) : HMap Hash := histGo [] cp.toList

/-- Well-formedness of a `LocalChain`: the tip list is strictly descending
and the index is exactly the tip history (spec §3 invariants 1 and 3;
the latter is the source's `_check_index_is_consistent_with_tip`). -/
def WF (c : LocalChain) : Prop :=
  StrictDesc c.tip.toList ∧ c.index = tipHistory c.tip

instance (c : LocalChain) : Decidable (WF c) := by
  unfold WF; infer_instance

/-- `h` lies strictly above every point of agreement of the two chains
(heights at which both chains store the same hash). -/
def aboveAllAgree (o u : List BlockId) (h : Nat) : Prop :=
  ∀ b ∈ o, hashAt u b.height = some b.hash → b.height < h

instance (o u : List BlockId) (h : Nat) : Decidable (aboveAllAgree o u h) := by
  unfold aboveAllAgree; infer_instance

/-- Some height above every agreement point carries differing hashes in the
two chains (i.e. the update invalidates at least one original block). -/
def diffAboveAgree (o u : List BlockId) : Prop :=
  ∃ b ∈ o, (∃ y, hashAt u b.height = some y ∧ b.hash ≠ y) ∧ aboveAllAgree o u b.height

instance (o u : List BlockId) : Decidable (diffAboveAgree o u) := by
  unfold diffAboveAgree; infer_instance

/-! ### Lemmas about the sorted association-list embedding of `BTreeMap` -/

theorem hmLookup_cons_self {α : Type} (k : Nat) (v : α) (rest : HMap α) :
    hmLookup ((k, v) :: rest) k = some v := by
  simp [hmLookup]

theorem hmLookup_cons_ne {α : Type} {j k : Nat} (h : j ≠ k) (v : α) (rest : HMap α) :
    hmLookup ((k, v) :: rest) j = hmLookup rest j := by
  simp [hmLookup, h]

theorem hmLookup_insert {α : Type} (m : HMap α) (k : Nat) (v : α) (j : Nat) :
    hmLookup (hmInsert m k v) j = if j = k then some v else hmLookup m j := by
  induction m with
  | nil =>
    by_cases h : j = k <;> simp [hmInsert, hmLookup, h]
  | cons p rest ih =>
    obtain ⟨k1, v1⟩ := p
    by_cases h1 : k < k1
    · simp only [hmInsert, if_pos h1]
      by_cases h2 : j = k
      · subst h2; simp [hmLookup_cons_self]
      · rw [hmLookup_cons_ne h2, if_neg h2]
    · by_cases h2 : k = k1
      · subst h2
        rw [show hmInsert ((k, v1) :: rest) k v = (k, v) :: rest by
          simp [hmInsert, h1]]
        by_cases h3 : j = k
        · subst h3; simp [hmLookup_cons_self]
        · rw [hmLookup_cons_ne h3, hmLookup_cons_ne h3, if_neg h3]
      · simp only [hmInsert, if_neg h1, if_neg h2]
        by_cases h3 : j = k1
        · subst h3
          rw [hmLookup_cons_self, hmLookup_cons_self, if_neg (fun h => h2 h.symm)]
        · rw [hmLookup_cons_ne h3, hmLookup_cons_ne h3, ih]

theorem hmInsert_mem {α : Type} {m : HMap α} {k : Nat} {v : α} :
    ∀ q ∈ hmInsert m k v, q.1 = k ∨ q ∈ m := by
  induction m with
  | nil => simp [hmInsert]
  | cons p rest ih =>
    obtain ⟨k1, v1⟩ := p
    intro q hq
    by_cases h1 : k < k1
    · simp only [hmInsert, if_pos h1] at hq
      rcases List.mem_cons.mp hq with h | h
      · left; rw [h]
      · right; exact h
    · by_cases h2 : k = k1
      · subst h2
        simp only [hmInsert, if_neg h1, if_pos rfl] at hq
        rcases List.mem_cons.mp hq with h | h
        · left; rw [h]
        · right; exact List.mem_cons_of_mem _ h
      · simp only [hmInsert, if_neg h1, if_neg h2] at hq
        rcases List.mem_cons.mp hq with h | h
        · right; rw [h]; exact List.mem_cons_self _ _
        · rcases ih q h with h3 | h3
          · left; exact h3
          · right; exact List.mem_cons_of_mem _ h3

theorem hmSorted_cons {α : Type} {p : Nat × α} {m : HMap α} :
    hmSorted (p :: m) ↔ (∀ q ∈ m, p.1 < q.1) ∧ hmSorted m := by
  unfold hmSorted
  simp [List.pairwise_cons]

theorem hmSorted_insert {α : Type} {m : HMap α} (hm : hmSorted m) (k : Nat) (v : α) :
    hmSorted (hmInsert m k v) := by
  induction m with
  | nil => simp [hmInsert, hmSorted]
  | cons p rest ih =>
    obtain ⟨k1, v1⟩ := p
    rw [hmSorted_cons] at hm
    obtain ⟨hbound, hrest⟩ := hm
    by_cases h1 : k < k1
    · simp only [hmInsert, if_pos h1]
      rw [hmSorted_cons]
      refine ⟨?_, hmSorted_cons.mpr ⟨hbound, hrest⟩⟩
      intro q hq
      rcases List.mem_cons.mp hq with h | h
      · rw [h]; exact h1
      · exact Nat.lt_trans h1 (hbound q h)
    · by_cases h2 : k = k1
      · subst h2
        simp only [hmInsert, if_neg h1, if_pos rfl]
        exact hmSorted_cons.mpr ⟨hbound, hrest⟩
      · simp only [hmInsert, if_neg h1, if_neg h2]
        rw [hmSorted_cons]
        refine ⟨?_, ih hrest⟩
        intro q hq
        rcases hmInsert_mem q hq with h | h
        · rw [h]; omega
        · exact hbound q h

theorem hmLookup_eq_none {α : Type} {m : HMap α} {j : Nat}
    (h : ∀ p ∈ m, p.1 ≠ j) : hmLookup m j = none := by
  induction m with
  | nil => rfl
  | cons p rest ih =>
    obtain ⟨k1, v1⟩ := p
    have h1 : k1 ≠ j := h (k1, v1) (List.mem_cons_self _ _)
    rw [hmLookup_cons_ne (fun hj => h1 hj.symm)]
    exact ih (fun q hq => h q (List.mem_cons_of_mem _ hq))

theorem hmLookup_isSome_iff {α : Type} (m : HMap α) (j : Nat) :
    (hmLookup m j).isSome = true ↔ j ∈ m.map Prod.fst := by
  induction m with
  | nil => simp [hmLookup]
  | cons p rest ih =>
    obtain ⟨k1, v1⟩ := p
    by_cases h1 : j = k1
    · subst h1; simp [hmLookup_cons_self]
    · rw [hmLookup_cons_ne h1]
      simp [ih, h1]

theorem hmLookup_mem {α : Type} {m : HMap α} {j : Nat} {v : α}
    (h : hmLookup m j = some v) : (j, v) ∈ m := by
  induction m with
  | nil => simp [hmLookup] at h
  | cons p rest ih =>
    obtain ⟨k1, v1⟩ := p
    by_cases h1 : j = k1
    · subst h1
      rw [hmLookup_cons_self] at h
      cases h
      exact List.mem_cons_self _ _
    · rw [hmLookup_cons_ne h1] at h
      exact List.mem_cons_of_mem _ (ih h)

theorem hmLookup_erase {α : Type} (m : HMap α) (k j : Nat) :
    hmLookup (hmErase m k) j = if j = k then none else hmLookup m j := by
  induction m with
  | nil => simp [hmErase, hmLookup]
  | cons p rest ih =>
    obtain ⟨k1, v1⟩ := p
    by_cases h1 : k1 = k
    · subst h1
      rw [show hmErase ((k1, v1) :: rest) k1 = hmErase rest k1 by
        simp [hmErase, List.filter]]
      rw [ih]
      by_cases h2 : j = k1
      · simp [h2]
      · rw [if_neg h2, if_neg h2, hmLookup_cons_ne h2]
    · rw [show hmErase ((k1, v1) :: rest) k = (k1, v1) :: hmErase rest k by
        simp [hmErase, List.filter, h1]]
      by_cases h2 : j = k1
      · subst h2
        rw [hmLookup_cons_self, hmLookup_cons_self, if_neg (by omega)]
      · rw [hmLookup_cons_ne h2, hmLookup_cons_ne h2, ih]

theorem hmSorted_filter {α : Type} {m : HMap α} (hm : hmSorted m) (p : Nat × α → Bool) :
    hmSorted (m.filter p) := List.Pairwise.filter p hm

theorem hmSorted_erase {α : Type} {m : HMap α} (hm : hmSorted m) (k : Nat) :
    hmSorted (hmErase m k) := hmSorted_filter hm _

theorem hmLookup_splitOffGe {α : Type} (m : HMap α) (k j : Nat) :
    hmLookup (hmSplitOffGe k m) j = if k ≤ j then hmLookup m j else none := by
  induction m with
  | nil => simp [hmSplitOffGe, hmLookup]
  | cons p rest ih =>
    obtain ⟨k1, v1⟩ := p
    by_cases h1 : k ≤ k1
    · rw [show hmSplitOffGe k ((k1, v1) :: rest) = (k1, v1) :: hmSplitOffGe k rest by
        simp [hmSplitOffGe, List.filter, h1]]
      by_cases h2 : j = k1
      · subst h2
        rw [hmLookup_cons_self, hmLookup_cons_self, if_pos h1]
      · rw [hmLookup_cons_ne h2, hmLookup_cons_ne h2, ih]
    · rw [show hmSplitOffGe k ((k1, v1) :: rest) = hmSplitOffGe k rest by
        simp [hmSplitOffGe, List.filter, h1]]
      rw [ih]
      by_cases h2 : j = k1
      · subst h2
        rw [if_neg h1, if_neg h1]
      · by_cases h3 : k ≤ j
        · rw [if_pos h3, if_pos h3, hmLookup_cons_ne h2]
        · rw [if_neg h3, if_neg h3]

theorem hmLookup_keepLt {α : Type} (m : HMap α) (k j : Nat) :
    hmLookup (hmKeepLt k m) j = if j < k then hmLookup m j else none := by
  induction m with
  | nil => simp [hmKeepLt, hmLookup]
  | cons p rest ih =>
    obtain ⟨k1, v1⟩ := p
    by_cases h1 : k1 < k
    · rw [show hmKeepLt k ((k1, v1) :: rest) = (k1, v1) :: hmKeepLt k rest by
        simp [hmKeepLt, List.filter, h1]]
      by_cases h2 : j = k1
      · subst h2
        rw [hmLookup_cons_self, hmLookup_cons_self, if_pos h1]
      · rw [hmLookup_cons_ne h2, hmLookup_cons_ne h2, ih]
    · rw [show hmKeepLt k ((k1, v1) :: rest) = hmKeepLt k rest by
        simp [hmKeepLt, List.filter, h1]]
      rw [ih]
      by_cases h2 : j = k1
      · subst h2
        rw [if_neg h1, if_neg h1]
      · by_cases h3 : j < k
        · rw [if_pos h3, if_pos h3, hmLookup_cons_ne h2]
        · rw [if_neg h3, if_neg h3]

theorem hmExt {α : Type} : ∀ {m n : HMap α}, hmSorted m → hmSorted n →
    (∀ k, hmLookup m k = hmLookup n k) → m = n := by
  intro m
  induction m with
  | nil =>
    intro n _ hn hlook
    cases n with
    | nil => rfl
    | cons p rest =>
      obtain ⟨k1, v1⟩ := p
      have h1 := hlook k1
      rw [hmLookup_cons_self] at h1
      simp [hmLookup] at h1
  | cons p mrest ih =>
    intro n hm hn hlook
    obtain ⟨k1, v1⟩ := p
    cases n with
    | nil =>
      have h1 := hlook k1
      rw [hmLookup_cons_self] at h1
      simp [hmLookup] at h1
    | cons q nrest =>
      obtain ⟨k2, v2⟩ := q
      rw [hmSorted_cons] at hm hn
      obtain ⟨hmb, hms⟩ := hm
      obtain ⟨hnb, hns⟩ := hn
      have hkey : k1 = k2 := by
        by_contra hne
        rcases Nat.lt_or_ge k1 k2 with hlt | hge
        · have h1 := hlook k1
          rw [hmLookup_cons_self, hmLookup_cons_ne hne,
            hmLookup_eq_none (fun q hq => by have := hnb q hq; omega)] at h1
          exact Option.noConfusion h1
        · have hlt2 : k2 < k1 := by omega
          have h1 := hlook k2
          rw [hmLookup_cons_self, hmLookup_cons_ne (fun h => hne h.symm),
            hmLookup_eq_none (fun q hq => by have := hmb q hq; omega)] at h1
          exact Option.noConfusion h1.symm
      subst hkey
      have hval : v1 = v2 := by
        have h1 := hlook k1
        rw [hmLookup_cons_self, hmLookup_cons_self] at h1
        cases h1
        rfl
      subst hval
      have htail : mrest = nrest := by
        apply ih hms hns
        intro k
        by_cases hk : k = k1
        · subst hk
          rw [hmLookup_eq_none (fun q hq => by have := hmb q hq; omega),
            hmLookup_eq_none (fun q hq => by have := hnb q hq; omega)]
        · have h1 := hlook k
          rwa [hmLookup_cons_ne hk, hmLookup_cons_ne hk] at h1
      rw [htail]

/-! ### Lemmas about block lists, `hashAt` and histories -/

theorem hashAt_cons (b : BlockId) (l : List BlockId) (h : Nat) :
    hashAt (b :: l) h = if b.height = h then some b.hash else hashAt l h := by
  unfold hashAt
  by_cases hb : b.height = h
  · rw [List.find?_cons_of_pos _ (by simpa using hb), if_pos hb]
    rfl
  · rw [List.find?_cons_of_neg _ (by simpa using hb), if_neg hb]

theorem hashAt_append (l1 l2 : List BlockId) (h : Nat) :
    hashAt (l1 ++ l2) h = (hashAt l1 h).or (hashAt l2 h) := by
  unfold hashAt
  rw [List.find?_append]
  cases List.find? (fun b => b.height == h) l1 <;> simp

theorem hashAt_eq_none_iff (l : List BlockId) (h : Nat) :
    hashAt l h = none ↔ ∀ b ∈ l, b.height ≠ h := by
  unfold hashAt
  simp [List.find?_eq_none]

theorem hashAt_some_elim {l : List BlockId} {h : Nat} {y : Hash}
    (hl : hashAt l h = some y) : ∃ b ∈ l, b.height = h ∧ b.hash = y := by
  unfold hashAt at hl
  obtain ⟨b, hfind, hmap⟩ := Option.map_eq_some'.mp hl
  have hmem := List.mem_of_find?_eq_some hfind
  have hheight : b.height = h := by
    have := List.find?_some hfind
    simpa using this
  exact ⟨b, hmem, hheight, hmap⟩

theorem hashAt_isSome_of_mem {l : List BlockId} {b : BlockId} (hb : b ∈ l) :
    (hashAt l b.height).isSome = true := by
  unfold hashAt
  rw [show ∀ o : Option BlockId, (o.map BlockId.hash).isSome = o.isSome by
    intro o; cases o <;> rfl]
  rw [List.find?_isSome]
  exact ⟨b, hb, by simp⟩

theorem StrictDesc_cons {b : BlockId} {l : List BlockId} :
    StrictDesc (b :: l) ↔ (∀ q ∈ l, q.height < b.height) ∧ StrictDesc l := by
  unfold StrictDesc
  simp [List.pairwise_cons]

theorem StrictDesc_append {l1 l2 : List BlockId} :
    StrictDesc (l1 ++ l2) ↔
      StrictDesc l1 ∧ StrictDesc l2 ∧ ∀ a ∈ l1, ∀ b ∈ l2, b.height < a.height := by
  unfold StrictDesc
  exact List.pairwise_append

theorem StrictDesc_heights_nodup {l : List BlockId} (hl : StrictDesc l) :
    (heights l).Nodup := by
  unfold heights
  induction l with
  | nil => simp
  | cons b rest ih =>
    rw [StrictDesc_cons] at hl
    obtain ⟨hb, hrest⟩ := hl
    simp only [List.map_cons, List.nodup_cons]
    refine ⟨?_, ih hrest⟩
    intro hmem
    obtain ⟨q, hq, hqh⟩ := List.mem_map.mp hmem
    have := hb q hq
    omega

theorem hashAt_of_mem {l : List BlockId} (hl : StrictDesc l) {b : BlockId} (hb : b ∈ l) :
    hashAt l b.height = some b.hash := by
  induction l with
  | nil => simp at hb
  | cons q rest ih =>
    rw [StrictDesc_cons] at hl
    obtain ⟨hq, hrest⟩ := hl
    rcases List.mem_cons.mp hb with h | h
    · subst h
      rw [hashAt_cons, if_pos rfl]
    · have hne : q.height ≠ b.height := by
        have := hq b h; omega
      rw [hashAt_cons, if_neg hne]
      exact ih hrest h

theorem hmLookup_drainInv (cs : ChangeSet) (hs : List Nat) (k : Nat) :
    hmLookup (drainInv cs hs) k = if k ∈ hs then some none else hmLookup cs k := by
  induction hs generalizing cs with
  | nil => simp [drainInv]
  | cons h t ih =>
    show hmLookup (drainInv (hmInsert cs h none) t) k = _
    rw [ih, hmLookup_insert]
    by_cases h1 : k ∈ t
    · simp [h1]
    · by_cases h2 : k = h
      · subst h2; simp [h1]
      · simp [h1, h2, List.mem_cons]

theorem hmSorted_drainInv {cs : ChangeSet} (hcs : hmSorted cs) (hs : List Nat) :
    hmSorted (drainInv cs hs) := by
  induction hs generalizing cs with
  | nil => exact hcs
  | cons h t ih =>
    exact ih (hmSorted_insert hcs h none)

theorem hmSorted_histGo {acc : HMap Hash} (hacc : hmSorted acc) (l : List BlockId) :
    hmSorted (histGo acc l) := by
  induction l generalizing acc with
  | nil => exact hacc
  | cons b t ih =>
    exact ih (hmSorted_insert hacc b.height b.hash)

theorem hmLookup_histGo {l : List BlockId} (hl : (heights l).Nodup)
    (acc : HMap Hash) (k : Nat) :
    hmLookup (histGo acc l) k = (hashAt l k).or (hmLookup acc k) := by
  induction l generalizing acc with
  | nil => simp [histGo, hashAt]
  | cons b t ih =>
    simp only [heights, List.map_cons, List.nodup_cons] at hl
    obtain ⟨hb, ht⟩ := hl
    show hmLookup (histGo (hmInsert acc b.height b.hash) t) k = _
    rw [ih ht, hashAt_cons, hmLookup_insert]
    by_cases h1 : b.height = k
    · subst h1
      have hnone : hashAt t b.height = none := by
        rw [hashAt_eq_none_iff]
        intro q hq hcontra
        exact hb (List.mem_map.mpr ⟨q, hq, hcontra⟩)
      simp [hnone]
    · rw [if_neg h1, if_neg (fun h => h1 h.symm)]

theorem tipHistory_sorted (cp : CheckPoint) : hmSorted (tipHistory cp) :=
  hmSorted_histGo List.Pairwise.nil _

theorem hmLookup_tipHistory {cp : CheckPoint} (hcp : StrictDesc cp.toList) (k : Nat) :
    hmLookup (tipHistory cp) k = hashAt cp.toList k := by
  unfold tipHistory
  rw [hmLookup_histGo (StrictDesc_heights_nodup hcp)]
  simp [hmLookup]

/-! ### Characterizations of the checkpoint-walking helpers -/

theorem toList_cons (b : BlockId) (p : CheckPoint) :
    (CheckPoint.cons b p).toList = b :: p.toList := rfl

theorem toList_base (b : BlockId) : (CheckPoint.base b).toList = [b] := rfl

theorem toList_ne_nil (cp : CheckPoint) : cp.toList ≠ [] := by
  cases cp <;> simp [CheckPoint.toList]

theorem toList_head : ∀ cp : CheckPoint, ∃ rest, cp.toList = cp.block_id :: rest := by
  intro cp
  cases cp with
  | base b => exact ⟨[], rfl⟩
  | cons b p => exact ⟨p.toList, rfl⟩

theorem height_eq_head_height (cp : CheckPoint) :
    ∀ b rest, cp.toList = b :: rest → cp.height = b.height := by
  intro b rest h
  obtain ⟨r2, h2⟩ := toList_head cp
  rw [h2] at h
  cases h
  rfl

theorem extendGo_ok : ∀ (bs : List BlockId) (orig curr : CheckPoint),
    List.Chain (fun a b => a < b) curr.height (heights bs) →
    ∃ t, CheckPoint.extendGo orig curr bs = .ok t ∧
      t.toList = bs.reverse ++ curr.toList := by
  intro bs
  induction bs with
  | nil =>
    intro orig curr _
    exact ⟨curr, rfl, by simp [CheckPoint.extendGo]⟩
  | cons b rest ih =>
    intro orig curr hchain
    rw [show heights (b :: rest) = b.height :: heights rest from rfl,
      List.chain_cons] at hchain
    obtain ⟨hlt, hchain2⟩ := hchain
    have hpush : curr.push b = .ok (.cons b curr) := by
      unfold CheckPoint.push
      rw [if_pos hlt]
    have hheight : (CheckPoint.cons b curr).height = b.height := rfl
    obtain ⟨t, hok, hlist⟩ := ih orig (.cons b curr) (by rw [hheight]; exact hchain2)
    refine ⟨t, ?_, ?_⟩
    · unfold CheckPoint.extendGo
      rw [hpush]
      exact hok
    · rw [hlist, toList_cons]
      simp

theorem extend_ok (cp : CheckPoint) (bs : List BlockId)
    (h : List.Chain (fun a b => a < b) cp.height (heights bs)) :
    ∃ t, cp.extend bs = .ok t ∧ t.toList = bs.reverse ++ cp.toList :=
  extendGo_ok bs cp cp h

theorem chain_of_sorted_lb : ∀ (m : HMap Hash) (c : Nat), hmSorted m →
    (∀ p ∈ m, c < p.1) → List.Chain (fun a b => a < b) c (m.map Prod.fst) := by
  intro m
  induction m with
  | nil => intro c _ _; exact List.Chain.nil
  | cons p rest ih =>
    intro c hs hb
    obtain ⟨k, v⟩ := p
    rw [hmSorted_cons] at hs
    obtain ⟨hbound, hrest⟩ := hs
    rw [List.map_cons, List.chain_cons]
    exact ⟨hb (k, v) (List.mem_cons_self _ _), ih k hrest hbound⟩

theorem heights_toBlockIds (m : HMap Hash) : heights (toBlockIds m) = m.map Prod.fst := by
  unfold heights toBlockIds
  rw [List.map_map]
  rfl

theorem StrictDesc_toBlockIds_reverse {m : HMap Hash} (hm : hmSorted m) :
    StrictDesc (toBlockIds m).reverse := by
  unfold StrictDesc
  rw [List.pairwise_reverse]
  unfold toBlockIds
  rw [List.pairwise_map]
  exact hm

theorem hashAt_toBlockIds_reverse {m : HMap Hash} (hm : hmSorted m) (k : Nat) :
    hashAt (toBlockIds m).reverse k = hmLookup m k := by
  cases hcase : hmLookup m k with
  | some v =>
    have hmem : (k, v) ∈ m := hmLookup_mem hcase
    have hmem2 : (⟨k, v⟩ : BlockId) ∈ (toBlockIds m).reverse := by
      rw [List.mem_reverse]
      exact List.mem_map.mpr ⟨(k, v), hmem, rfl⟩
    have := hashAt_of_mem (StrictDesc_toBlockIds_reverse hm) hmem2
    simpa using this
  | none =>
    rw [hashAt_eq_none_iff]
    intro b hb hcontra
    rw [List.mem_reverse] at hb
    obtain ⟨p, hp, hpb⟩ := List.mem_map.mp hb
    have hkey : p.1 = k := by rw [← hpb] at hcontra; exact hcontra
    have : (hmLookup m k).isSome = true :=
      (hmLookup_isSome_iff m k).mpr (List.mem_map.mpr ⟨p, hp, hkey⟩)
    rw [hcase] at this
    simp at this

theorem collectExtGo_spec : ∀ (cp : CheckPoint) (acc : HMap Hash) (start : Nat),
    StrictDesc cp.toList →
    ∃ pfx rest,
      cp.toList = pfx ++ rest ∧
      (∀ b ∈ pfx, start ≤ b.height) ∧
      (collectExtGo start acc cp).1 = histGo acc pfx ∧
      ((collectExtGo start acc cp).2 = none ∧ rest = [] ∨
        ∃ bcp, (collectExtGo start acc cp).2 = some bcp ∧ rest = bcp.toList ∧
          StrictDesc bcp.toList ∧ (∀ b ∈ rest, b.height < start)) := by
  intro cp
  induction cp with
  | base b =>
    intro acc start hdesc
    by_cases h1 : start ≤ b.height
    · refine ⟨[b], [], by simp [toList_base], by simp [h1], ?_, Or.inl ⟨?_, rfl⟩⟩
      · simp [collectExtGo, if_pos h1, histGo]
      · simp [collectExtGo, if_pos h1]
    · refine ⟨[], [b], by simp [toList_base], by simp, ?_, Or.inr ⟨.base b, ?_, rfl, hdesc, ?_⟩⟩
      · simp [collectExtGo, if_neg h1, histGo]
      · simp [collectExtGo, if_neg h1]
      · intro q hq
        rcases List.mem_singleton.mp hq with h
        subst h
        omega
  | cons b p ih =>
    intro acc start hdesc
    rw [toList_cons, StrictDesc_cons] at hdesc
    obtain ⟨hbound, hdesc2⟩ := hdesc
    by_cases h1 : start ≤ b.height
    · obtain ⟨pfx, rest, hsplit, hpfx, hext, hbase⟩ :=
        ih (hmInsert acc b.height b.hash) start hdesc2
      refine ⟨b :: pfx, rest, ?_, ?_, ?_, ?_⟩
      · rw [toList_cons, hsplit]; rfl
      · intro q hq
        rcases List.mem_cons.mp hq with h | h
        · subst h; exact h1
        · exact hpfx q h
      · rw [show collectExtGo start acc (.cons b p) =
            collectExtGo start (hmInsert acc b.height b.hash) p by
          simp [collectExtGo, if_pos h1]]
        rw [hext]
        rfl
      · rw [show collectExtGo start acc (.cons b p) =
            collectExtGo start (hmInsert acc b.height b.hash) p by
          simp [collectExtGo, if_pos h1]]
        exact hbase
    · refine ⟨[], (CheckPoint.cons b p).toList, by simp, by simp,
        ?_, Or.inr ⟨.cons b p, ?_, rfl, ?_, ?_⟩⟩
      · simp [collectExtGo, if_neg h1, histGo]
      · simp [collectExtGo, if_neg h1]
      · rw [toList_cons, StrictDesc_cons]; exact ⟨hbound, hdesc2⟩
      · intro q hq
        rw [toList_cons] at hq
        rcases List.mem_cons.mp hq with h | h
        · subst h; omega
        · have := hbound q h; omega

theorem reindexGo_spec : ∀ (cp : CheckPoint) (acc : HMap Hash) (from_ : Nat),
    StrictDesc cp.toList →
    ∃ pfx rest,
      cp.toList = pfx ++ rest ∧
      (∀ b ∈ pfx, from_ ≤ b.height) ∧
      (∀ b ∈ rest, b.height < from_) ∧
      reindexGo from_ acc cp = histGo acc pfx := by
  intro cp
  induction cp with
  | base b =>
    intro acc from_ _
    by_cases h1 : b.height < from_
    · exact ⟨[], [b], by simp [toList_base], by simp,
        by intro q hq; rcases List.mem_singleton.mp hq with h; subst h; exact h1,
        by simp [reindexGo, if_pos h1, histGo]⟩
    · exact ⟨[b], [], by simp [toList_base],
        by intro q hq; rcases List.mem_singleton.mp hq with h; subst h; omega,
        by simp,
        by simp [reindexGo, if_neg h1, histGo]⟩
  | cons b p ih =>
    intro acc from_ hdesc
    rw [toList_cons, StrictDesc_cons] at hdesc
    obtain ⟨hbound, hdesc2⟩ := hdesc
    by_cases h1 : b.height < from_
    · refine ⟨[], (CheckPoint.cons b p).toList, by simp, by simp, ?_,
        by simp [reindexGo, if_pos h1, histGo]⟩
      intro q hq
      rw [toList_cons] at hq
      rcases List.mem_cons.mp hq with h | h
      · subst h; exact h1
      · have := hbound q h; omega
    · obtain ⟨pfx, rest, hsplit, hpfx, hrest, hval⟩ :=
        ih (hmInsert acc b.height b.hash) from_ hdesc2
      refine ⟨b :: pfx, rest, ?_, ?_, hrest, ?_⟩
      · rw [toList_cons, hsplit]; rfl
      · intro q hq
        rcases List.mem_cons.mp hq with h | h
        · subst h; omega
        · exact hpfx q h
      · rw [show reindexGo from_ acc (.cons b p) =
            reindexGo from_ (hmInsert acc b.height b.hash) p by
          simp [reindexGo, if_neg h1]]
        rw [hval]
        rfl

theorem foldTip_ok : ∀ (blocks : HMap Hash) (cur : CheckPoint), hmSorted blocks →
    (∀ p ∈ blocks, cur.height < p.1) →
    ∃ t, LocalChain.foldTip (some cur) blocks = some (some t) ∧
      t.toList = (toBlockIds blocks).reverse ++ cur.toList := by
  intro blocks
  induction blocks with
  | nil =>
    intro cur _ _
    exact ⟨cur, rfl, by simp [toBlockIds]⟩
  | cons p rest ih =>
    intro cur hs hb
    obtain ⟨k, v⟩ := p
    rw [hmSorted_cons] at hs
    obtain ⟨hbound, hrest⟩ := hs
    have hpush : cur.push ⟨k, v⟩ = .ok (.cons ⟨k, v⟩ cur) := by
      unfold CheckPoint.push
      rw [if_pos (hb (k, v) (List.mem_cons_self _ _))]
    obtain ⟨t, hok, hlist⟩ := ih (.cons ⟨k, v⟩ cur) hrest
      (by intro q hq; exact hbound q hq)
    refine ⟨t, ?_, ?_⟩
    · rw [show LocalChain.foldTip (some cur) ((k, v) :: rest) =
          LocalChain.foldTip (some (.cons ⟨k, v⟩ cur)) rest by
        simp [LocalChain.foldTip, hpush]]
      exact hok
    · rw [hlist, toList_cons]
      simp [toBlockIds]

theorem from_blocks_ok {blocks : HMap Hash} (hs : hmSorted blocks)
    (hg : (hmLookup blocks 0).isSome = true) :
    ∃ c, LocalChain.from_blocks blocks = .ok c ∧ c.index = blocks ∧ c.birthday = 0 ∧
      c.tip.toList = (toBlockIds blocks).reverse ∧ WF c := by
  cases hblocks : blocks with
  | nil => rw [hblocks] at hg; simp [hmLookup] at hg
  | cons p rest =>
    subst hblocks
    obtain ⟨k, v⟩ := p
    rw [hmSorted_cons] at hs
    obtain ⟨hbound, hrest⟩ := hs
    have hs2 : hmSorted ((k, v) :: rest) := hmSorted_cons.mpr ⟨hbound, hrest⟩
    obtain ⟨t, hok, hlist⟩ := foldTip_ok rest (.base ⟨k, v⟩) hrest
      (by intro q hq; exact hbound q hq)
    have hfold : LocalChain.foldTip none ((k, v) :: rest) = some (some t) := by
      simpa [LocalChain.foldTip] using hok
    have htl : t.toList = (toBlockIds ((k, v) :: rest)).reverse := by
      rw [hlist, toList_base]
      simp [toBlockIds]
    have hdesc : StrictDesc t.toList := by
      rw [htl]
      exact StrictDesc_toBlockIds_reverse hs2
    refine ⟨{ birthday := 0, index := (k, v) :: rest, tip := t }, ?_, rfl, rfl, htl, hdesc, ?_⟩
    · unfold LocalChain.from_blocks
      rw [if_neg (by simp only [Option.isNone_iff_eq_none]; intro h; rw [h] at hg; simp at hg)]
      rw [hfold]
    · show (k, v) :: rest = tipHistory t
      apply hmExt hs2 (tipHistory_sorted t)
      intro j
      rw [hmLookup_tipHistory hdesc, htl, hashAt_toBlockIds_reverse hs2]

/-! ### The changeset fold and `apply_changeset` -/

theorem hmLookup_of_mem_sorted {α : Type} {m : HMap α} (hm : hmSorted m)
    {p : Nat × α} (hp : p ∈ m) : hmLookup m p.1 = some p.2 := by
  induction m with
  | nil => simp at hp
  | cons q rest ih =>
    obtain ⟨k1, v1⟩ := q
    rw [hmSorted_cons] at hm
    obtain ⟨hbound, hrest⟩ := hm
    rcases List.mem_cons.mp hp with h | h
    · subst h
      exact hmLookup_cons_self _ _ _
    · have hne : p.1 ≠ k1 := by have := hbound p h; omega
      rw [hmLookup_cons_ne hne]
      exact ih hrest h

theorem hmSorted_applyCsAll {m : HMap Hash} (hm : hmSorted m) (cs : ChangeSet) :
    hmSorted (applyCsAll m cs) := by
  induction cs generalizing m with
  | nil => exact hm
  | cons e rest ih =>
    show hmSorted (applyCsAll (applyCsStep m e) rest)
    apply ih
    obtain ⟨k, v⟩ := e
    cases v with
    | some h => exact hmSorted_insert hm k h
    | none => exact hmSorted_erase hm k

theorem hmLookup_applyCsAll {cs : ChangeSet} (hcs : hmSorted cs) (m : HMap Hash) (k : Nat) :
    hmLookup (applyCsAll m cs) k =
      match hmLookup cs k with
      | some (some v) => some v
      | some none => none
      | none => hmLookup m k := by
  induction cs generalizing m with
  | nil => simp [applyCsAll, hmLookup]
  | cons e rest ih =>
    obtain ⟨k0, v0⟩ := e
    rw [hmSorted_cons] at hcs
    obtain ⟨hbound, hrest⟩ := hcs
    show hmLookup (applyCsAll (applyCsStep m (k0, v0)) rest) k = _
    rw [ih hrest]
    by_cases h1 : k = k0
    · subst h1
      rw [hmLookup_cons_self]
      rw [hmLookup_eq_none (m := rest) (fun q hq => by have := hbound q hq; omega)]
      cases v0 with
      | some h =>
        show (hmLookup (hmInsert m k h) k) = some h
        rw [hmLookup_insert, if_pos rfl]
      | none =>
        show (hmLookup (hmErase m k) k) = none
        rw [hmLookup_erase, if_pos rfl]
    · rw [hmLookup_cons_ne h1]
      cases hrk : hmLookup rest k with
      | some w => cases w <;> rfl
      | none =>
        cases v0 with
        | some h =>
          show hmLookup (hmInsert m k0 h) k = hmLookup m k
          rw [hmLookup_insert, if_neg h1]
        | none =>
          show hmLookup (hmErase m k0) k = hmLookup m k
          rw [hmLookup_erase, if_neg h1]

theorem apply_changeset_err_state {c : LocalChain} {cs : ChangeSet} {c' : LocalChain}
    {e : MissingGenesisError} (h : c.apply_changeset cs = .err c' e) : c' = c := by
  unfold LocalChain.apply_changeset at h
  cases cs with
  | nil => cases h
  | cons p rest =>
    obtain ⟨start, v0⟩ := p
    simp only at h
    cases hres : (collectExtGo start [] c.tip).2 with
    | some base =>
      rw [hres] at h
      dsimp only at h
      cases hext : base.extend (toBlockIds (applyCsAll (collectExtGo start [] c.tip).1
          ((start, v0) :: rest))) with
      | ok t => rw [hext] at h; cases h
      | error t => rw [hext] at h; cases h
    | none =>
      rw [hres] at h
      dsimp only at h
      cases hfb : LocalChain.from_blocks (applyCsAll (collectExtGo start [] c.tip).1
          ((start, v0) :: rest)) with
      | ok chain => rw [hfb] at h; cases h
      | err e2 => rw [hfb] at h; cases h; rfl
      | diverged => rw [hfb] at h; cases h

theorem hashAt_none_of_ge {l : List BlockId} {start k : Nat}
    (h : ∀ b ∈ l, start ≤ b.height) (hk : k < start) : hashAt l k = none :=
  (hashAt_eq_none_iff l k).mpr (fun b hb => by have := h b hb; omega)

theorem hashAt_none_of_lt {l : List BlockId} {start k : Nat}
    (h : ∀ b ∈ l, b.height < start) (hk : start ≤ k) : hashAt l k = none :=
  (hashAt_eq_none_iff l k).mpr (fun b hb => by have := h b hb; omega)

/-- `apply_changeset` in the case where the checkpoint walk finds a base
below the changeset's start height: it succeeds, preserves well-formedness
and the birthday, and the new index is the changeset overlaid on the old
index. -/
theorem apply_changeset_base {c : LocalChain} {start : Nat} {v0 : Option Hash}
    {csrest : ChangeSet}
    (hwf : WF c) (hcs : hmSorted ((start, v0) :: csrest))
    (hbase : ∃ b ∈ c.tip.toList, b.height < start) :
    ∃ c', c.apply_changeset ((start, v0) :: csrest) = .ok c' () ∧ WF c' ∧
      c'.birthday = c.birthday ∧
      ∀ k, hmLookup c'.index k =
        match hmLookup ((start, v0) :: csrest) k with
        | some (some v) => some v
        | some none => none
        | none => hmLookup c.index k := by
  obtain ⟨hdesc, hidx⟩ := hwf
  have hidxsorted : hmSorted c.index := by rw [hidx]; exact tipHistory_sorted _
  have hidxlook : ∀ k, hmLookup c.index k = hashAt c.tip.toList k := by
    intro k
    rw [hidx]
    exact hmLookup_tipHistory hdesc k
  have hcslow : ∀ k, k < start → hmLookup ((start, v0) :: csrest) k = none := by
    intro k hk
    apply hmLookup_eq_none
    intro p hp
    rcases List.mem_cons.mp hp with h | h
    · rw [h]; omega
    · rw [hmSorted_cons] at hcs
      have := hcs.1 p h
      omega
  obtain ⟨pfx, rest2, hsplit, hpfxge, hext, hbase2⟩ := collectExtGo_spec c.tip [] start hdesc
  obtain ⟨b0, hb0mem, hb0lt⟩ := hbase
  rcases hbase2 with ⟨hnone, hrest2nil⟩ | ⟨bcp, hsome, hrest2, hbdesc, hrestlt⟩
  · exfalso
    rw [hsplit, hrest2nil, List.append_nil] at hb0mem
    have := hpfxge b0 hb0mem
    omega
  have hdescsplit := hdesc
  rw [hsplit, StrictDesc_append] at hdescsplit
  obtain ⟨hpfxdesc, hrdesc, hcross⟩ := hdescsplit
  have hpfxnodup := StrictDesc_heights_nodup hpfxdesc
  have hextlook : ∀ k, hmLookup (collectExtGo start [] c.tip).1 k = hashAt pfx k := by
    intro k
    rw [hext, hmLookup_histGo hpfxnodup]
    simp [hmLookup]
  have hextsorted : hmSorted (collectExtGo start [] c.tip).1 := by
    rw [hext]
    exact hmSorted_histGo List.Pairwise.nil _
  have hext2sorted : hmSorted (applyCsAll (collectExtGo start [] c.tip).1
      ((start, v0) :: csrest)) := hmSorted_applyCsAll hextsorted _
  have hext2look : ∀ k, hmLookup (applyCsAll (collectExtGo start [] c.tip).1
      ((start, v0) :: csrest)) k =
      match hmLookup ((start, v0) :: csrest) k with
      | some (some v) => some v
      | some none => none
      | none => hashAt pfx k := by
    intro k
    rw [hmLookup_applyCsAll hcs, hextlook]
  have hext2keys : ∀ p ∈ (applyCsAll (collectExtGo start [] c.tip).1
      ((start, v0) :: csrest)), start ≤ p.1 := by
    intro p hp
    by_contra hcon
    have hlt : p.1 < start := by omega
    have h1 := hmLookup_of_mem_sorted hext2sorted hp
    rw [hext2look, hcslow p.1 hlt, hashAt_none_of_ge hpfxge hlt] at h1
    cases h1
  have hrestlt2 : ∀ b ∈ bcp.toList, b.height < start := by rw [← hrest2]; exact hrestlt
  have hbh : bcp.height < start := by
    obtain ⟨r3, hr3⟩ := toList_head bcp
    exact hrestlt2 bcp.block_id (by rw [hr3]; exact List.mem_cons_self _ _)
  have hchain : List.Chain (fun a b => a < b) bcp.height
      (heights (toBlockIds (applyCsAll (collectExtGo start [] c.tip).1
        ((start, v0) :: csrest)))) := by
    rw [heights_toBlockIds]
    apply chain_of_sorted_lb _ _ hext2sorted
    intro p hp
    have := hext2keys p hp
    omega
  obtain ⟨nt, hntok, hntlist⟩ := extend_ok bcp _ hchain
  have hrevdesc : StrictDesc (toBlockIds (applyCsAll (collectExtGo start [] c.tip).1
      ((start, v0) :: csrest))).reverse := StrictDesc_toBlockIds_reverse hext2sorted
  have hrevge : ∀ b ∈ (toBlockIds (applyCsAll (collectExtGo start [] c.tip).1
      ((start, v0) :: csrest))).reverse, start ≤ b.height := by
    intro b hb
    rw [List.mem_reverse] at hb
    obtain ⟨p, hp, hpb⟩ := List.mem_map.mp hb
    have := hext2keys p hp
    rw [← hpb]
    exact this
  have hrevlook : ∀ k, hashAt (toBlockIds (applyCsAll (collectExtGo start [] c.tip).1
      ((start, v0) :: csrest))).reverse k =
      hmLookup (applyCsAll (collectExtGo start [] c.tip).1 ((start, v0) :: csrest)) k :=
    hashAt_toBlockIds_reverse hext2sorted
  have hntdesc : StrictDesc nt.toList := by
    rw [hntlist, StrictDesc_append]
    refine ⟨hrevdesc, hbdesc, ?_⟩
    intro a ha b hb
    have h1 := hrevge a ha
    have h2 := hrestlt2 b hb
    omega
  have hntlook : ∀ k, hashAt nt.toList k =
      if start ≤ k then
        hmLookup (applyCsAll (collectExtGo start [] c.tip).1 ((start, v0) :: csrest)) k
      else hashAt bcp.toList k := by
    intro k
    rw [hntlist, hashAt_append, hrevlook]
    by_cases hk : start ≤ k
    · rw [if_pos hk, hashAt_none_of_lt hrestlt2 hk]
      cases hmLookup (applyCsAll (collectExtGo start [] c.tip).1 ((start, v0) :: csrest)) k
        <;> simp
    · rw [if_neg hk]
      have h1 : hmLookup (applyCsAll (collectExtGo start [] c.tip).1
          ((start, v0) :: csrest)) k = none := by
        cases h2 : hmLookup (applyCsAll (collectExtGo start [] c.tip).1
            ((start, v0) :: csrest)) k with
        | none => rfl
        | some w =>
          have := hext2keys _ (hmLookup_mem h2)
          omega
      rw [h1]
      simp
  have hidxlow : ∀ k, k < start → hmLookup c.index k = hashAt bcp.toList k := by
    intro k hk
    rw [hidxlook, hsplit, hrest2, hashAt_append, hashAt_none_of_ge hpfxge hk]
    simp
  have hidxhigh : ∀ k, start ≤ k → hmLookup c.index k = hashAt pfx k := by
    intro k hk
    rw [hidxlook, hsplit, hrest2, hashAt_append, hashAt_none_of_lt hrestlt2 hk]
    cases hashAt pfx k <;> simp
  obtain ⟨pfx2, rest3, hsplit2, hpfx2ge, hrest3lt, hval2⟩ := reindexGo_spec nt
    (hmKeepLt start c.index) start hntdesc
  have hpfx2desc : StrictDesc pfx2 := by
    have h := hntdesc
    rw [hsplit2, StrictDesc_append] at h
    exact h.1
  have hkeepsorted : hmSorted (hmKeepLt start c.index) := hmSorted_filter hidxsorted _
  have hidx2look : ∀ k, hmLookup (reindexGo start (hmKeepLt start c.index) nt) k =
      (hashAt pfx2 k).or (if k < start then hmLookup c.index k else none) := by
    intro k
    rw [hval2, hmLookup_histGo (StrictDesc_heights_nodup hpfx2desc), hmLookup_keepLt]
  have hpfx2at : ∀ k, start ≤ k → hashAt pfx2 k = hashAt nt.toList k := by
    intro k hk
    rw [hsplit2, hashAt_append, hashAt_none_of_lt hrest3lt hk]
    cases hashAt pfx2 k <;> simp
  have hfinal : ∀ k, hmLookup (reindexGo start (hmKeepLt start c.index) nt) k =
      match hmLookup ((start, v0) :: csrest) k with
      | some (some v) => some v
      | some none => none
      | none => hmLookup c.index k := by
    intro k
    rw [hidx2look]
    by_cases hk : start ≤ k
    · rw [hpfx2at k hk, hntlook, if_pos hk, hext2look, if_neg (by omega)]
      rw [hidxhigh k hk]
      cases hmLookup ((start, v0) :: csrest) k with
      | none => simp
      | some w => cases w <;> simp
    · have hklt : k < start := by omega
      rw [hashAt_none_of_ge hpfx2ge hklt, if_pos hklt, hcslow k hklt]
      simp
  have hwf2 : reindexGo start (hmKeepLt start c.index) nt = tipHistory nt := by
    apply hmExt (by rw [hval2]; exact hmSorted_histGo hkeepsorted _) (tipHistory_sorted nt)
    intro k
    rw [hmLookup_tipHistory hntdesc, hidx2look]
    by_cases hk : start ≤ k
    · rw [hpfx2at k hk, if_neg (by omega)]
      cases hashAt nt.toList k <;> simp
    · have hklt : k < start := by omega
      rw [hashAt_none_of_ge hpfx2ge hklt, if_pos hklt, hidxlow k hklt, hntlook, if_neg hk]
      simp
  refine ⟨{ tip := nt, index := reindexGo start (hmKeepLt start c.index) nt,
            birthday := c.birthday }, ?_, ⟨hntdesc, hwf2⟩, rfl, hfinal⟩
  show c.apply_changeset ((start, v0) :: csrest) = _
  unfold LocalChain.apply_changeset
  dsimp only
  rw [hsome]
  dsimp only
  rw [hntok]
  rfl

/-- `apply_changeset` when the changeset starts at height 0 with a genesis
hash: the whole tip is rebuilt through `from_blocks`. -/
theorem apply_changeset_zero {c : LocalChain} {g : Hash} {csrest : ChangeSet}
    (hwf : WF c) (hcs : hmSorted ((0, some g) :: csrest)) :
    ∃ c', c.apply_changeset ((0, some g) :: csrest) = .ok c' () ∧ WF c' ∧
      c'.birthday = c.birthday ∧
      ∀ k, hmLookup c'.index k =
        match hmLookup ((0, some g) :: csrest) k with
        | some (some v) => some v
        | some none => none
        | none => hmLookup c.index k := by
  obtain ⟨hdesc, hidx⟩ := hwf
  have hidxlook : ∀ k, hmLookup c.index k = hashAt c.tip.toList k := by
    intro k
    rw [hidx]
    exact hmLookup_tipHistory hdesc k
  obtain ⟨pfx, rest2, hsplit, hpfxge, hext, hbase2⟩ := collectExtGo_spec c.tip [] 0 hdesc
  rcases hbase2 with ⟨hnone, hrest2nil⟩ | ⟨bcp, hsome, hrest2, hbdesc, hrestlt⟩
  swap
  · exfalso
    obtain ⟨r3, hr3⟩ := toList_head bcp
    have hmem : bcp.block_id ∈ rest2 := by
      rw [hrest2, hr3]; exact List.mem_cons_self _ _
    have := hrestlt bcp.block_id hmem
    omega
  rw [hrest2nil, List.append_nil] at hsplit
  have hpfxeq : pfx = c.tip.toList := hsplit.symm
  subst hpfxeq
  have hextlook : ∀ k, hmLookup (collectExtGo 0 [] c.tip).1 k = hashAt c.tip.toList k := by
    intro k
    rw [hext, hmLookup_histGo (StrictDesc_heights_nodup hdesc)]
    simp [hmLookup]
  have hextsorted : hmSorted (collectExtGo 0 [] c.tip).1 := by
    rw [hext]
    exact hmSorted_histGo List.Pairwise.nil _
  have hext2sorted : hmSorted (applyCsAll (collectExtGo 0 [] c.tip).1
      ((0, some g) :: csrest)) := hmSorted_applyCsAll hextsorted _
  have hext2look : ∀ k, hmLookup (applyCsAll (collectExtGo 0 [] c.tip).1
      ((0, some g) :: csrest)) k =
      match hmLookup ((0, some g) :: csrest) k with
      | some (some v) => some v
      | some none => none
      | none => hmLookup c.index k := by
    intro k
    rw [hmLookup_applyCsAll hcs, hextlook, hidxlook]
  have hgen : (hmLookup (applyCsAll (collectExtGo 0 [] c.tip).1
      ((0, some g) :: csrest)) 0).isSome = true := by
    rw [hext2look, hmLookup_cons_self]
    rfl
  obtain ⟨chain, hfb, hcidx, hcbday, hctl, hcwf⟩ := from_blocks_ok hext2sorted hgen
  have hklz : hmKeepLt 0 c.index = [] := by
    unfold hmKeepLt
    rw [List.filter_eq_nil_iff]
    intro p _
    simp
  obtain ⟨pfx2, rest3, hsplit2, hpfx2ge, hrest3lt, hval2⟩ := reindexGo_spec chain.tip
    (hmKeepLt 0 c.index) 0 hcwf.1
  have hrest3nil : rest3 = [] := by
    rw [List.eq_nil_iff_forall_not_mem]
    intro b hb
    have := hrest3lt b hb
    omega
  rw [hrest3nil, List.append_nil] at hsplit2
  have hreidx : reindexGo 0 (hmKeepLt 0 c.index) chain.tip = tipHistory chain.tip := by
    rw [hval2, hklz, ← hsplit2]
    rfl
  have heff : ∀ k, hmLookup (reindexGo 0 (hmKeepLt 0 c.index) chain.tip) k =
      match hmLookup ((0, some g) :: csrest) k with
      | some (some v) => some v
      | some none => none
      | none => hmLookup c.index k := by
    intro k
    rw [hreidx, ← hcwf.2, hcidx, hext2look]
  refine ⟨{ tip := chain.tip, index := reindexGo 0 (hmKeepLt 0 c.index) chain.tip,
            birthday := c.birthday }, ?_, ⟨hcwf.1, hreidx⟩, rfl, heff⟩
  show c.apply_changeset ((0, some g) :: csrest) = _
  unfold LocalChain.apply_changeset
  dsimp only
  rw [hnone]
  dsimp only
  rw [hfb]
  rfl

/-- `apply_changeset` fails (leaving the chain untouched) when the whole tip
sits at or above the start height and the changeset provides no genesis. -/
theorem apply_changeset_fail {c : LocalChain} {start : Nat} {v0 : Option Hash}
    {csrest : ChangeSet}
    (hwf : WF c) (hcs : hmSorted ((start, v0) :: csrest))
    (hall : ∀ b ∈ c.tip.toList, start ≤ b.height)
    (hbad : start = 0 → v0 = none) :
    c.apply_changeset ((start, v0) :: csrest) = .err c ⟨⟩ := by
  obtain ⟨hdesc, hidx⟩ := hwf
  obtain ⟨pfx, rest2, hsplit, hpfxge, hext, hbase2⟩ := collectExtGo_spec c.tip [] start hdesc
  rcases hbase2 with ⟨hnone, hrest2nil⟩ | ⟨bcp, hsome, hrest2, hbdesc, hrestlt⟩
  swap
  · exfalso
    obtain ⟨r3, hr3⟩ := toList_head bcp
    have hmem : bcp.block_id ∈ rest2 := by
      rw [hrest2, hr3]; exact List.mem_cons_self _ _
    have h1 := hrestlt bcp.block_id hmem
    have h2 : bcp.block_id ∈ c.tip.toList := by
      rw [hsplit]
      exact List.mem_append_right _ hmem
    have := hall _ h2
    omega
  rw [hrest2nil, List.append_nil] at hsplit
  have hpfxeq : pfx = c.tip.toList := hsplit.symm
  subst hpfxeq
  have hextlook : ∀ k, hmLookup (collectExtGo start [] c.tip).1 k = hashAt c.tip.toList k := by
    intro k
    rw [hext, hmLookup_histGo (StrictDesc_heights_nodup hdesc)]
    simp [hmLookup]
  have hextsorted : hmSorted (collectExtGo start [] c.tip).1 := by
    rw [hext]
    exact hmSorted_histGo List.Pairwise.nil _
  have hzero : hmLookup (applyCsAll (collectExtGo start [] c.tip).1
      ((start, v0) :: csrest)) 0 = none := by
    rw [hmLookup_applyCsAll hcs, hextlook]
    by_cases hs0 : start = 0
    · subst hs0
      rw [hbad rfl, hmLookup_cons_self]
    · have hc0 : hmLookup ((start, v0) :: csrest) 0 = none := by
        apply hmLookup_eq_none
        intro p hp
        rcases List.mem_cons.mp hp with h | h
        · rw [h]; omega
        · rw [hmSorted_cons] at hcs
          have := hcs.1 p h
          omega
      rw [hc0]
      show hashAt c.tip.toList 0 = none
      exact hashAt_none_of_ge hall (by omega)
  have hfb : LocalChain.from_blocks (applyCsAll (collectExtGo start [] c.tip).1
      ((start, v0) :: csrest)) = .err ⟨⟩ := by
    unfold LocalChain.from_blocks
    rw [if_pos (by rw [hzero]; rfl)]
  show c.apply_changeset ((start, v0) :: csrest) = _
  unfold LocalChain.apply_changeset
  dsimp only
  rw [hnone]
  dsimp only
  rw [hfb]

/-! ### Derived facts about the mutators -/

theorem mergeLoop_sorted {introduce : Bool} :
    ∀ (fuel : Nat) (o u : List BlockId) (s : MergeState), hmSorted s.changeset →
    ∀ {cs}, mergeLoop introduce fuel o u s = .ok cs → hmSorted cs := by
  intro fuel
  induction fuel with
  | zero =>
    intro o u s hs cs h
    cases o with
    | nil =>
      cases u with
      | nil =>
        unfold mergeLoop mergeFinish at h
        split at h
        · split at h
          · cases h
          · cases h; exact hs
        · cases h; exact hs
      | cons u us => cases h
    | cons o os =>
      cases u with
      | nil =>
        unfold mergeLoop mergeFinish at h
        split at h
        · split at h
          · cases h
          · cases h; exact hs
        · cases h; exact hs
      | cons u us => cases h
  | succ fuel ih =>
    intro o u s hs cs h
    cases o with
    | nil =>
      cases u with
      | nil =>
        unfold mergeLoop mergeFinish at h
        split at h
        · split at h
          · cases h
          · cases h; exact hs
        · cases h; exact hs
      | cons u us =>
        rw [show mergeLoop introduce (fuel + 1) [] (u :: us) s =
            mergeLoop introduce fuel [] us
              { s with changeset := hmInsert s.changeset u.height (some u.hash),
                       prevUpdate := some u } from rfl] at h
        exact ih [] us _ (hmSorted_insert hs _ _) h
    | cons o os =>
      cases u with
      | nil =>
        unfold mergeLoop mergeFinish at h
        split at h
        · split at h
          · cases h
          · cases h; exact hs
        · cases h; exact hs
      | cons u us =>
        rw [show mergeLoop introduce (fuel + 1) (o :: os) (u :: us) s =
            (if o.height < u.height then
              mergeLoop introduce fuel (o :: os) us
                { s with changeset := hmInsert s.changeset u.height (some u.hash),
                         prevUpdate := some u }
            else if u.height < o.height then
              mergeLoop introduce fuel os (u :: us)
                { s with potInv := s.potInv ++ [o.height], prevOrigInv := false,
                         prevOrig := some o }
            else if o.hash = u.hash then
              if s.prevOrigInv = false ∧ s.poaFound = false ∧
                  s.prevOrig.isSome ∧ s.prevUpdate.isSome then
                .error ⟨(s.prevOrig.getD o).height⟩
              else if introduce = false then .ok s.changeset
              else
                mergeLoop introduce fuel os us
                  { s with poaFound := true, prevOrigInv := false,
                           prevOrig := some o, prevUpdate := some u }
            else
              mergeLoop introduce fuel os us
                { s with
                  changeset := drainInv (hmInsert s.changeset u.height (some u.hash)) s.potInv,
                  potInv := [], prevOrigInv := true,
                  prevOrig := some o, prevUpdate := some u }) from rfl] at h
        split at h
        · exact ih _ _ _ (hmSorted_insert hs _ _) h
        · split at h
          · refine ih _ _ _ ?_ h
            exact hs
          · split at h
            · split at h
              · cases h
              · split at h
                · cases h; exact hs
                · refine ih _ _ _ ?_ h
                  exact hs
            · refine ih _ _ _ ?_ h
              exact hmSorted_drainInv (hmSorted_insert hs _ _) _

theorem merge_chains_sorted {o u : CheckPoint} {i : Bool} {cs : ChangeSet}
    (h : merge_chains o u i = .ok cs) : hmSorted cs :=
  mergeLoop_sorted _ _ _ _ (by exact List.Pairwise.nil) h

/-- Any successful `apply_changeset` on a well-formed chain with a sorted
changeset: well-formedness and the birthday are preserved and the new index
is the changeset overlaid on the old one. -/
theorem apply_changeset_wf {c : LocalChain} {cs : ChangeSet} {c' : LocalChain}
    (hwf : WF c) (hcs : hmSorted cs) (hok : c.apply_changeset cs = .ok c' ()) :
    WF c' ∧ c'.birthday = c.birthday ∧
    ∀ k, hmLookup c'.index k =
      match hmLookup cs k with
      | some (some v) => some v
      | some none => none
      | none => hmLookup c.index k := by
  cases cs with
  | nil =>
    have hc : c' = c := by
      unfold LocalChain.apply_changeset at hok
      cases hok
      rfl
    subst hc
    exact ⟨hwf, rfl, fun k => by simp [hmLookup]⟩
  | cons p csrest =>
    obtain ⟨start, v0⟩ := p
    by_cases hbase : ∃ b ∈ c.tip.toList, b.height < start
    · obtain ⟨c2, heq, hwf2, hbd, heff⟩ := apply_changeset_base hwf hcs hbase
      rw [heq] at hok
      cases hok
      exact ⟨hwf2, hbd, heff⟩
    · push_neg at hbase
      have hall : ∀ b ∈ c.tip.toList, start ≤ b.height := fun b hb => hbase b hb
      by_cases hzero : start = 0 ∧ ∃ g, v0 = some g
      · obtain ⟨hs0, g, hg⟩ := hzero
        subst hs0
        subst hg
        obtain ⟨c2, heq, hwf2, hbd, heff⟩ := apply_changeset_zero hwf hcs
        rw [heq] at hok
        cases hok
        exact ⟨hwf2, hbd, heff⟩
      · exfalso
        have hbad : start = 0 → v0 = none := by
          intro hs0
          cases hv : v0 with
          | none => rfl
          | some g => exact absurd ⟨hs0, g, hv⟩ hzero
        rw [apply_changeset_fail hwf hcs hall hbad] at hok
        cases hok

/-- A successful `apply_update` decomposes into a successful merge followed
by a successful `apply_changeset` of the merge's changeset. -/
theorem apply_update_ok {c : LocalChain} {u : Update} {c' : LocalChain} {cs : ChangeSet}
    (hok : c.apply_update u = .ok c' cs) :
    merge_chains c.tip u.tip u.introduce_older_blocks = .ok cs ∧
    c.apply_changeset cs = .ok c' () := by
  unfold LocalChain.apply_update at hok
  cases hm : merge_chains c.tip u.tip u.introduce_older_blocks with
  | error e => rw [hm] at hok; cases hok
  | ok cs0 =>
    rw [hm] at hok
    dsimp only at hok
    cases hac : c.apply_changeset cs0 with
    | ok s v =>
      cases v
      rw [hac] at hok
      cases hok
      exact ⟨rfl, hac⟩
    | err s e => rw [hac] at hok; cases hok
    | diverged => rw [hac] at hok; cases hok

/-- A failed `apply_update` leaves the chain untouched. -/
theorem apply_update_err {c : LocalChain} {u : Update} {c' : LocalChain}
    {e : CannotConnectError} (h : c.apply_update u = .err c' e) : c' = c := by
  unfold LocalChain.apply_update at h
  cases hm : merge_chains c.tip u.tip u.introduce_older_blocks with
  | error e2 =>
    rw [hm] at h
    cases h
    rfl
  | ok cs0 =>
    rw [hm] at h
    dsimp only at h
    cases hac : c.apply_changeset cs0 with
    | ok s v => rw [hac] at h; cases h
    | err s e2 =>
      rw [hac] at h
      cases h
      exact apply_changeset_err_state hac
    | diverged => rw [hac] at h; cases h

/-- A failed `insert_block` leaves the chain untouched. -/
theorem insert_block_err {c : LocalChain} {b : BlockId} {c' : LocalChain}
    {e : AlterCheckPointError} (h : c.insert_block b = .err c' e) : c' = c := by
  unfold LocalChain.insert_block at h
  cases hl : hmLookup c.index b.height with
  | some orig =>
    rw [hl] at h
    dsimp only at h
    split at h
    · cases h; rfl
    · cases h
  | none =>
    rw [hl] at h
    dsimp only at h
    cases hac : c.apply_changeset (hmInsert [] b.height (some b.hash)) with
    | ok s v => rw [hac] at h; cases h
    | err s e2 =>
      rw [hac] at h
      dsimp only at h
      cases hg : hmLookup s.index 0 with
      | none => rw [hg] at h; cases h
      | some g =>
        rw [hg] at h
        cases h
        exact apply_changeset_err_state hac
    | diverged => rw [hac] at h; cases h

/-- A failed `disconnect_from` leaves the chain untouched. -/
theorem disconnect_from_err {c : LocalChain} {b : BlockId} {c' : LocalChain}
    {e : MissingGenesisError} (h : c.disconnect_from b = .err c' e) : c' = c := by
  unfold LocalChain.disconnect_from at h
  split at h
  · cases h
  · dsimp only at h
    cases hac : c.apply_changeset
        ((hmSplitOffGe b.height c.index).map (fun p => (p.1, none))) with
    | ok s v => rw [hac] at h; cases h
    | err s e2 =>
      rw [hac] at h
      cases h
      exact apply_changeset_err_state hac
    | diverged => rw [hac] at h; cases h

/-- A failed `apply_header_connected_to` leaves the chain untouched. -/
theorem apply_header_connected_to_err {c : LocalChain} {hd : Header} {height : Nat}
    {conn : BlockId} {c' : LocalChain} {e : ApplyHeaderError}
    (h : c.apply_header_connected_to hd height conn = .err c' e) : c' = c := by
  have hfin : ∀ (co pr : Option BlockId) (th : BlockId),
      LocalChain.applyHeaderFinish c co pr th = .err c' e → c' = c := by
    intro co pr th hf
    unfold LocalChain.applyHeaderFinish at hf
    cases hcp : CheckPoint.from_block_ids ([co, pr, some th].filterMap id) with
    | error x => rw [hcp] at hf; cases hf
    | ok tip =>
      rw [hcp] at hf
      dsimp only at hf
      cases hau : c.apply_update ⟨tip, false⟩ with
      | ok s cs => rw [hau] at hf; cases hf
      | err s e2 =>
        rw [hau] at hf
        cases hf
        exact apply_update_err hau
      | diverged => rw [hau] at hf; cases hf
  unfold LocalChain.apply_header_connected_to at h
  dsimp only at h
  split at h
  · split at h
    · exact hfin _ _ _ h
    · split at h
      · cases h; rfl
      · exact hfin _ _ _ h
  · split at h
    · exact hfin _ _ _ h
    · split at h
      · cases h; rfl
      · exact hfin _ _ _ h

/-! ### Concrete chains used by witnesses and counterexamples -/

/-- The chain produced by `from_genesis_hash(1)`. -/
def genChain : LocalChain := (LocalChain.from_genesis_hash 1).1

/-- The chain produced by `from_block_id(1, (5, 2))`: genesis in the index
but not in the checkpoint list; birthday 5. -/
def blockIdChain : LocalChain := (LocalChain.from_block_id 1 ⟨5, 2⟩).1

/-- An update tip `[0:1] → [1:3] → [5:2]` that connects to `blockIdChain`
at its tip and introduces the older blocks 0 and 1. -/
def birthTip : CheckPoint := .cons ⟨5, 2⟩ (.cons ⟨1, 3⟩ (.base ⟨0, 1⟩))

/-- `blockIdChain` after applying `birthTip` with
`introduce_older_blocks = true`: a well-formed chain with birthday 5. -/
def birthChain : LocalChain :=
  { tip := birthTip, index := [(0, 1), (1, 3), (5, 2)], birthday := 5 }

/-! ### Reflexivity of the implemented chain equality -/

theorem beq_refl (c : LocalChain) : LocalChain.beq c c = true := by
  unfold LocalChain.beq
  rw [if_neg (by omega), if_neg (by omega)]
  simp

/-! ### Claim theorems -/

/-- Arithmetic shape of the coinbase maturity test: for `age < 2 ^ 32` the
wrapped `u32` sum `age + 1` is below the maturity constant exactly when the
age is below 99 or the addition wrapped. -/
theorem maturity_arith (age : Nat) (h : age < 2 ^ 32) :
    ((age + 1) % 2 ^ 32 < COINBASE_MATURITY ↔ (age < 99 ∨ age = 2 ^ 32 - 1)) := by
  rcases Nat.lt_or_ge age (2 ^ 32 - 1) with hlt | hge
  · have h1 : age + 1 < 2 ^ 32 := by omega
    rw [Nat.mod_eq_of_lt h1]
    unfold COINBASE_MATURITY
    omega
  · have heq : age = 2 ^ 32 - 1 := by omega
    subst heq
    have h2 : (2 ^ 32 - 1 + 1) % 2 ^ 32 = 0 := by norm_num
    rw [h2]
    unfold COINBASE_MATURITY
    norm_num

/-- C9 (amended): for a `u32` tip, a non-coinbase output is always mature;
a confirmed coinbase output with confirmation-height upper bound `u` is
immature exactly when `tip - u < 99` (saturating) or `tip - u = 2^32 - 1`
(where the release-mode `u32` addition `age + 1` wraps to 0). -/
theorem claim_C9_is_mature {A : Type} [Anchor A] (t : FullTxOut A) (tip : Nat)
    (htip : tip < 2 ^ 32) :
    (t.is_on_coinbase = false → t.is_mature tip = true) ∧
    (∀ a : A, t.is_on_coinbase = true → t.chain_position = .Confirmed a →
      (t.is_mature tip = false ↔
        (tip - confirmation_height_upper_bound a < 99 ∨
         tip - confirmation_height_upper_bound a = 2 ^ 32 - 1))) := by
  constructor
  · intro h
    simp [FullTxOut.is_mature, h]
  · intro a hcb hpos
    have hage : tip - confirmation_height_upper_bound a < 2 ^ 32 := by omega
    simp only [FullTxOut.is_mature, hcb, if_true, hpos]
    rw [← maturity_arith _ hage]
    split <;> simp_all

/-- C9 counterexample: a coinbase output anchored at height 0 with the tip
at `u32::MAX` is reported immature although `tip - u = 2^32 - 1 ≥ 99`,
refuting "immature iff `tip - u < 99`". -/
theorem claim_C9_counterexample :
    (FullTxOut.is_mature
      { outpoint := (0, 0), txout := 0, chain_position := .Confirmed (⟨0, 7⟩ : BlockId),
        spent_by := none, is_on_coinbase := true } (2 ^ 32 - 1)) = false ∧
    ¬ ((2 ^ 32 - 1) - confirmation_height_upper_bound (⟨0, 7⟩ : BlockId) < 99) := by
  exact ⟨by decide, by decide⟩

/-- C9 witness at `tip = 150`, coinbase confirmed with upper bound 10:
the theorem applies and the output is mature. -/
theorem claim_C9_witness :
    (150 : Nat) < 2 ^ 32 ∧
    ((FullTxOut.is_mature
      { outpoint := (0, 0), txout := 0, chain_position := .Confirmed (⟨10, 7⟩ : BlockId),
        spent_by := none, is_on_coinbase := true } 150) = false ↔
      ((150 : Nat) - confirmation_height_upper_bound (⟨10, 7⟩ : BlockId) < 99 ∨
       (150 : Nat) - confirmation_height_upper_bound (⟨10, 7⟩ : BlockId) = 2 ^ 32 - 1)) :=
  ⟨by decide,
    (claim_C9_is_mature
      { outpoint := (0, 0), txout := 0, chain_position := .Confirmed (⟨10, 7⟩ : BlockId),
        spent_by := none, is_on_coinbase := true } 150 (by decide)).2
      ⟨10, 7⟩ rfl rfl⟩

/-- C10: for a mature output confirmed within the tip, an unconfirmed (or
absent) spender leaves `is_confirmed_and_spendable` true; only a confirmed
spender whose anchor-block height is at or below the tip makes it false. -/
theorem claim_C10_spendable {A : Type} [Anchor A] (t : FullTxOut A) (tip : Nat) (a : A)
    (hpos : t.chain_position = .Confirmed a)
    (hub : confirmation_height_upper_bound a ≤ tip)
    (hmat : t.is_mature tip = true) :
    (∀ ts txid, t.spent_by = some (.Unconfirmed ts, txid) →
      t.is_confirmed_and_spendable tip = true) ∧
    (t.spent_by = none → t.is_confirmed_and_spendable tip = true) ∧
    (∀ sa txid, t.spent_by = some (.Confirmed sa, txid) →
      (t.is_confirmed_and_spendable tip = false ↔ (anchor_block sa).height ≤ tip)) := by
  have hnotlt : ¬ tip < confirmation_height_upper_bound a := by omega
  refine ⟨?_, ?_, ?_⟩
  · intro ts txid hsp
    simp [FullTxOut.is_confirmed_and_spendable, hmat, hpos, hnotlt, hsp]
  · intro hsp
    simp [FullTxOut.is_confirmed_and_spendable, hmat, hpos, hnotlt, hsp]
  · intro sa txid hsp
    simp only [FullTxOut.is_confirmed_and_spendable, hmat, hpos, hnotlt, hsp, if_false]
    split <;> simp_all

/-- C10 witness: a mature confirmed output spent by an unconfirmed
transaction is still spendable at tip 200. -/
theorem claim_C10_witness :
    (FullTxOut.is_confirmed_and_spendable
      { outpoint := (0, 0), txout := 0, chain_position := .Confirmed (⟨10, 7⟩ : BlockId),
        spent_by := some (.Unconfirmed 42, 9), is_on_coinbase := false } 200) = true :=
  (claim_C10_spendable
    { outpoint := (0, 0), txout := 0, chain_position := .Confirmed (⟨10, 7⟩ : BlockId),
      spent_by := some (.Unconfirmed 42, 9), is_on_coinbase := false } 200 ⟨10, 7⟩
    rfl (by decide) (by decide)).1 42 9 rfl

/-- C2: a successful `apply_update` returning Δ is reproduced by applying Δ
with `apply_changeset` to the pre-update state; the result compares equal
(under the implemented equality) to the post-update state. -/
theorem claim_C2_update_changeset_equiv (c : LocalChain) (u : Update)
    (c' : LocalChain) (Δ : ChangeSet) (hok : c.apply_update u = .ok c' Δ) :
    ∃ c2, c.apply_changeset Δ = .ok c2 () ∧ LocalChain.beq c2 c' = true := by
  obtain ⟨_, hac⟩ := apply_update_ok hok
  exact ⟨c', hac, beq_refl c'⟩

/-- C2 witness: extending the genesis chain by one block. -/
theorem claim_C2_witness :
    genChain.apply_update ⟨.cons ⟨1, 2⟩ (.base ⟨0, 1⟩), false⟩ =
      .ok { tip := .cons ⟨1, 2⟩ (.base ⟨0, 1⟩), index := [(0, 1), (1, 2)], birthday := 0 }
        [(1, some 2)] ∧
    ∃ c2, genChain.apply_changeset [(1, some 2)] = .ok c2 () ∧
      LocalChain.beq c2
        { tip := .cons ⟨1, 2⟩ (.base ⟨0, 1⟩), index := [(0, 1), (1, 2)], birthday := 0 }
        = true :=
  ⟨by decide,
   claim_C2_update_changeset_equiv genChain ⟨.cons ⟨1, 2⟩ (.base ⟨0, 1⟩), false⟩ _ _
     (by decide)⟩

/-- C3 counterexample: on orig `[0:1]→[5:2]` and update `[3:3]→[4:4]` the
merge fails, but with `try_include_height = 0`, not 5. -/
theorem claim_C3_counterexample :
    merge_chains (.cons ⟨5, 2⟩ (.base ⟨0, 1⟩)) (.cons ⟨4, 4⟩ (.base ⟨3, 3⟩)) false
      = .error ⟨0⟩ ∧
    ¬ merge_chains (.cons ⟨5, 2⟩ (.base ⟨0, 1⟩)) (.cons ⟨4, 4⟩ (.base ⟨3, 3⟩)) false
      = .error ⟨5⟩ :=
  ⟨by decide, by decide⟩

/-- C3 (amended): the ambiguous connection fails with `CannotConnectError`,
and the suggested height is 0 — the height of the last original block the
loop examined (`prev_orig`), per the post-loop check — not 5. -/
theorem claim_C3_ambiguous_connection :
    merge_chains (.cons ⟨5, 2⟩ (.base ⟨0, 1⟩)) (.cons ⟨4, 4⟩ (.base ⟨3, 3⟩)) false
      = .error ⟨0⟩ := by
  decide

/-- C4: every mutating operation that returns an error leaves the chain
exactly as it was (tip, index and birthday unchanged). -/
theorem claim_C4_no_partial_mutation (c : LocalChain) (u : Update) (cs : ChangeSet)
    (b b2 : BlockId) (hd : Header) (height : Nat) :
    (∀ c' e, c.apply_update u = .err c' e → c' = c) ∧
    (∀ c' e, c.apply_changeset cs = .err c' e → c' = c) ∧
    (∀ c' e, c.insert_block b = .err c' e → c' = c) ∧
    (∀ c' e, c.disconnect_from b2 = .err c' e → c' = c) ∧
    (∀ c' e, c.apply_header_connected_to hd height b = .err c' e → c' = c) :=
  ⟨fun _ _ h => apply_update_err h,
   fun _ _ h => apply_changeset_err_state h,
   fun _ _ h => insert_block_err h,
   fun _ _ h => disconnect_from_err h,
   fun _ _ h => apply_header_connected_to_err h⟩

/-- C4 witness: concrete failing calls (a disconnect of the genesis block
and an insert conflicting with an existing hash) leave the chain intact. -/
theorem claim_C4_witness :
    genChain.disconnect_from ⟨0, 1⟩ = .err genChain ⟨⟩ ∧
    (∀ c' e, genChain.disconnect_from ⟨0, 1⟩ = .err c' e → c' = genChain) ∧
    genChain.insert_block ⟨0, 9⟩ = .err genChain ⟨0, 1, some 9⟩ ∧
    (∀ c' e, genChain.insert_block ⟨0, 9⟩ = .err c' e → c' = genChain) :=
  ⟨by decide,
   fun c' e h =>
     (claim_C4_no_partial_mutation genChain ⟨.base ⟨0, 1⟩, false⟩ [] ⟨0, 9⟩ ⟨0, 1⟩
       ⟨0, 0⟩ 0).2.2.2.1 c' e h,
   by decide,
   fun c' e h =>
     (claim_C4_no_partial_mutation genChain ⟨.base ⟨0, 1⟩, false⟩ [] ⟨0, 9⟩ ⟨0, 1⟩
       ⟨0, 0⟩ 0).2.2.1 c' e h⟩

/-- Looking up in a value-mapped association list. -/
theorem hmLookup_map_val {α β : Type} (f : α → β) (m : HMap α) (k : Nat) :
    hmLookup (m.map (fun p => (p.1, f p.2))) k = (hmLookup m k).map f := by
  induction m with
  | nil => simp [hmLookup]
  | cons p rest ih =>
    obtain ⟨k1, v1⟩ := p
    by_cases h1 : k = k1
    · subst h1
      simp [hmLookup_cons_self, hmLookup]
    · rw [List.map_cons]
      dsimp only
      rw [hmLookup_cons_ne h1, hmLookup_cons_ne h1, ih]

/-- A sorted map containing key 0 starts with its key-0 entry. -/
theorem sorted_head_zero {α : Type} {m : HMap α} {g : α} (hm : hmSorted m)
    (h : hmLookup m 0 = some g) : ∃ mrest, m = (0, g) :: mrest := by
  cases m with
  | nil => simp [hmLookup] at h
  | cons p rest =>
    obtain ⟨k1, v1⟩ := p
    by_cases h1 : k1 = 0
    · subst h1
      rw [hmLookup_cons_self] at h
      cases h
      exact ⟨rest, rfl⟩
    · rw [hmLookup_cons_ne (fun hc => h1 hc.symm)] at h
      have hmem := hmLookup_mem h
      rw [hmSorted_cons] at hm
      have := hm.1 _ hmem
      omega

/-- C5 (amended): the implemented chain equality holds iff — for equal
birthdays — the indexes are identical, and — for distinct birthdays — the
genesis entries agree and the higher-birthday chain's whole index equals
the lower chain's index restricted to heights at or above the higher
birthday. -/
theorem claim_C5_eq_characterization (a b : LocalChain)
    (ha : hmSorted a.index) (hb : hmSorted b.index) :
    LocalChain.beq a b = true ↔
      ((a.birthday = b.birthday ∧ ∀ k, hmLookup a.index k = hmLookup b.index k) ∨
       (b.birthday < a.birthday ∧ hmLookup a.index 0 = hmLookup b.index 0 ∧
         ∀ k, hmLookup a.index k =
           if a.birthday ≤ k then hmLookup b.index k else none) ∨
       (a.birthday < b.birthday ∧ hmLookup a.index 0 = hmLookup b.index 0 ∧
         ∀ k, hmLookup b.index k =
           if b.birthday ≤ k then hmLookup a.index k else none)) := by
  unfold LocalChain.beq
  rcases Nat.lt_trichotomy b.birthday a.birthday with hbd | hbd | hbd
  · rw [if_pos hbd]
    simp only [Bool.and_eq_true, decide_eq_true_eq]
    constructor
    · rintro ⟨h0, hidx⟩
      refine Or.inr (Or.inl ⟨hbd, h0, ?_⟩)
      intro k
      rw [hidx, hmLookup_splitOffGe]
    · rintro (⟨he, _⟩ | ⟨_, h0, hidx⟩ | ⟨hlt, _, _⟩)
      · omega
      · refine ⟨h0, ?_⟩
        apply hmExt ha
          (show hmSorted (hmSplitOffGe a.birthday b.index) from hmSorted_filter hb _)
        intro k
        rw [hidx k, hmLookup_splitOffGe]
      · omega
  · rw [if_neg (by omega), if_neg (by omega)]
    simp only [decide_eq_true_eq]
    constructor
    · intro hidx
      exact Or.inl ⟨hbd.symm, fun k => by rw [hidx]⟩
    · rintro (⟨_, hidx⟩ | ⟨hlt, _, _⟩ | ⟨hlt, _, _⟩)
      · exact hmExt ha hb hidx
      · omega
      · omega
  · rw [if_neg (by omega), if_pos hbd]
    simp only [Bool.and_eq_true, decide_eq_true_eq]
    constructor
    · rintro ⟨h0, hidx⟩
      refine Or.inr (Or.inr ⟨hbd, h0, ?_⟩)
      intro k
      rw [← hidx, hmLookup_splitOffGe]
    · rintro (⟨he, _⟩ | ⟨hlt, _, _⟩ | ⟨_, h0, hidx⟩)
      · omega
      · omega
      · refine ⟨h0, ?_⟩
        apply hmExt
          (show hmSorted (hmSplitOffGe b.birthday a.index) from hmSorted_filter ha _) hb
        intro k
        rw [hidx k, hmLookup_splitOffGe]

/-- C5 counterexample: two API-reachable chains with equal birthdays (5)
whose indexes agree at genesis and at every height ≥ 5, yet compare
unequal — the implemented equality compares the whole indexes. -/
theorem claim_C5_counterexample :
    LocalChain.beq blockIdChain birthChain = false ∧
    blockIdChain.birthday = 5 ∧ birthChain.birthday = 5 ∧
    hmLookup blockIdChain.index 0 = hmLookup birthChain.index 0 ∧
    (∀ k, 5 ≤ k → hmLookup blockIdChain.index k = hmLookup birthChain.index k) ∧
    blockIdChain.apply_update ⟨birthTip, true⟩ =
      .ok birthChain [(0, some 1), (1, some 3)] ∧
    WF birthChain := by
  refine ⟨by decide, by decide, by decide, by decide, ?_, by decide, by decide⟩
  intro k hk
  by_cases h5 : k = 5
  · subst h5; decide
  · rw [hmLookup_eq_none, hmLookup_eq_none]
    · intro p hp
      have : p = (0, 1) ∨ p = (1, 3) ∨ p = (5, 2) := by
        simpa [birthChain] using hp
      rcases this with h | h | h <;> (subst h; simp; omega)
    · intro p hp
      have : p = (0, 1) ∨ p = (5, 2) := by
        simpa [blockIdChain, LocalChain.from_block_id, hmInsert,
          LocalChain.initial_changeset] using hp
      rcases this with h | h <;> (subst h; simp; omega)

/-- C5 witness: the characterization applied to the genesis chain against
itself (equal birthdays, identical indexes). -/
theorem claim_C5_witness :
    hmSorted genChain.index ∧ hmSorted genChain.index ∧
    (LocalChain.beq genChain genChain = true ↔
      ((genChain.birthday = genChain.birthday ∧
         ∀ k, hmLookup genChain.index k = hmLookup genChain.index k) ∨
       (genChain.birthday < genChain.birthday ∧
         hmLookup genChain.index 0 = hmLookup genChain.index 0 ∧
         ∀ k, hmLookup genChain.index k =
           if genChain.birthday ≤ k then hmLookup genChain.index k else none) ∨
       (genChain.birthday < genChain.birthday ∧
         hmLookup genChain.index 0 = hmLookup genChain.index 0 ∧
         ∀ k, hmLookup genChain.index k =
           if genChain.birthday ≤ k then hmLookup genChain.index k else none))) :=
  ⟨by decide, by decide,
   claim_C5_eq_characterization genChain genChain (by decide) (by decide)⟩

/-- The `from_genesis_hash` chain is well-formed. -/
theorem from_genesis_wf (g : Hash) : WF (LocalChain.from_genesis_hash g).1 := by
  constructor
  · exact List.pairwise_singleton _ _
  · rfl

theorem initial_changeset_sorted {c : LocalChain} (h : hmSorted c.index) :
    hmSorted c.initial_changeset := by
  unfold LocalChain.initial_changeset hmSorted
  rw [List.pairwise_map]
  exact h

theorem hmLookup_initial_changeset (c : LocalChain) (k : Nat) :
    hmLookup c.initial_changeset k = (hmLookup c.index k).map some :=
  hmLookup_map_val some c.index k

/-- C6 (amended): for a well-formed chain with a genesis entry,
`from_changeset(initial_changeset())` succeeds and reproduces the index
exactly, but the resulting chain has birthday 0; it compares equal (under
the implemented equality) to the original precisely when the original's
birthday is 0. -/
theorem claim_C6_initial_changeset_roundtrip (c : LocalChain)
    (hwf : WF c) (hg : (hmLookup c.index 0).isSome = true) :
    ∃ c', LocalChain.from_changeset c.initial_changeset = .ok c' ∧
      c'.index = c.index ∧ c'.birthday = 0 ∧
      (LocalChain.beq c' c = true ↔ c.birthday = 0) := by
  have hidxsorted : hmSorted c.index := by rw [hwf.2]; exact tipHistory_sorted _
  obtain ⟨g, hg2⟩ := Option.isSome_iff_exists.mp hg
  obtain ⟨mrest, hm⟩ := sorted_head_zero hidxsorted hg2
  have hcs0 : hmLookup c.initial_changeset 0 = some (some g) := by
    rw [hmLookup_initial_changeset, hg2]
    rfl
  have hcssorted : hmSorted c.initial_changeset := initial_changeset_sorted hidxsorted
  obtain ⟨csrest, hcsshape⟩ := sorted_head_zero hcssorted hcs0
  have hwfg := from_genesis_wf g
  have hcs2 : hmSorted ((0, some g) :: csrest) := by rw [← hcsshape]; exact hcssorted
  obtain ⟨c', hok, hwf2, hbd, heff⟩ :=
    apply_changeset_zero (c := (LocalChain.from_genesis_hash g).1) hwfg hcs2
  have hidx2 : c'.index = c.index := by
    apply hmExt (by rw [hwf2.2]; exact tipHistory_sorted _) hidxsorted
    intro k
    rw [heff k]
    rw [show hmLookup ((0, some g) :: csrest) k = hmLookup c.initial_changeset k by
      rw [hcsshape]]
    rw [hmLookup_initial_changeset]
    cases hik : hmLookup c.index k with
    | some v => rfl
    | none =>
      show hmLookup (LocalChain.from_genesis_hash g).1.index k = none
      show hmLookup [(0, g)] k = none
      have hk0 : k ≠ 0 := by
        intro h
        subst h
        rw [hg2] at hik
        cases hik
      rw [hmLookup_cons_ne hk0]
      rfl
  have hb0 : c'.birthday = 0 := hbd
  refine ⟨c', ?_, hidx2, hb0, ?_⟩
  · unfold LocalChain.from_changeset
    rw [show (hmLookup c.initial_changeset 0).join = some g by rw [hcs0]; rfl]
    dsimp only
    rw [show (LocalChain.from_genesis_hash g).1.apply_changeset c.initial_changeset =
        (LocalChain.from_genesis_hash g).1.apply_changeset ((0, some g) :: csrest) by
      rw [hcsshape]]
    rw [hok]
  · constructor
    · intro hbeq
      by_contra hbd0
      have hlt : c'.birthday < c.birthday := by omega
      unfold LocalChain.beq at hbeq
      rw [if_neg (by omega), if_pos hlt] at hbeq
      simp only [Bool.and_eq_true, decide_eq_true_eq] at hbeq
      have h1 := congrArg (fun m => hmLookup m 0) hbeq.2
      simp only at h1
      rw [hmLookup_splitOffGe, if_neg (by omega)] at h1
      rw [hg2] at h1
      cases h1
    · intro hbd0
      unfold LocalChain.beq
      rw [if_neg (by omega), if_neg (by omega)]
      simp only [decide_eq_true_eq]
      rw [hidx2]

/-- C6 counterexample: a valid (well-formed) API-reachable chain with
birthday 5 round-trips to a chain with the same index but birthday 0, which
the implemented equality rejects. -/
theorem claim_C6_counterexample :
    WF birthChain ∧ (hmLookup birthChain.index 0).isSome = true ∧
    blockIdChain.apply_update ⟨birthTip, true⟩ =
      .ok birthChain [(0, some 1), (1, some 3)] ∧
    LocalChain.from_changeset birthChain.initial_changeset =
      .ok { tip := birthTip, index := [(0, 1), (1, 3), (5, 2)], birthday := 0 } ∧
    LocalChain.beq { tip := birthTip, index := [(0, 1), (1, 3), (5, 2)], birthday := 0 }
      birthChain = false :=
  ⟨by decide, by decide, by decide, by decide, by decide⟩

/-- C6 witness: the round-trip applied to the genesis chain (birthday 0),
where the round-tripped chain also compares equal. -/
theorem claim_C6_witness :
    WF genChain ∧ (hmLookup genChain.index 0).isSome = true ∧
    ∃ c', LocalChain.from_changeset genChain.initial_changeset = .ok c' ∧
      c'.index = genChain.index ∧ c'.birthday = 0 ∧
      (LocalChain.beq c' genChain = true ↔ genChain.birthday = 0) :=
  ⟨by decide, by decide,
   claim_C6_initial_changeset_roundtrip genChain (by decide) (by decide)⟩

theorem hmLookup_map_none (m : HMap Hash) (k : Nat) :
    hmLookup (m.map (fun p => (p.1, (none : Option Hash)))) k
      = (hmLookup m k).map (fun _ => none) := by
  induction m with
  | nil => simp [hmLookup]
  | cons p rest ih =>
    obtain ⟨k1, v1⟩ := p
    by_cases h1 : k = k1
    · subst h1
      simp [hmLookup_cons_self, hmLookup]
    · rw [List.map_cons]
      dsimp only
      rw [hmLookup_cons_ne h1, hmLookup_cons_ne h1, ih]

theorem hmSplitOffGe_zero {α : Type} (m : HMap α) : hmSplitOffGe 0 m = m := by
  unfold hmSplitOffGe
  rw [List.filter_eq_self]
  intro p _
  simp

/-- C8 (amended): on a well-formed chain with a genesis entry,
`disconnect_from` is a no-op when the block is absent; for a present block
at positive height it returns the changeset mapping every indexed height
`≥ block_id.height` to `None` and applies it; disconnecting from the
genesis block fails with `MissingGenesisError`, leaving the chain
unchanged. -/
theorem claim_C8_disconnect (c : LocalChain) (b : BlockId)
    (hwf : WF c) (hg : (hmLookup c.index 0).isSome = true) :
    (hmLookup c.index b.height ≠ some b.hash → c.disconnect_from b = .ok c []) ∧
    (hmLookup c.index b.height = some b.hash → 0 < b.height →
      ∃ c', c.disconnect_from b =
          .ok c' ((hmSplitOffGe b.height c.index).map (fun p => (p.1, none))) ∧
        WF c' ∧ c'.birthday = c.birthday ∧
        ∀ k, hmLookup c'.index k =
          if b.height ≤ k then none else hmLookup c.index k) ∧
    (hmLookup c.index b.height = some b.hash → b.height = 0 →
      c.disconnect_from b = .err c ⟨⟩) := by
  have hidxsorted : hmSorted c.index := by rw [hwf.2]; exact tipHistory_sorted _
  have hidxlook : ∀ k, hmLookup c.index k = hashAt c.tip.toList k := by
    intro k
    rw [hwf.2]
    exact hmLookup_tipHistory hwf.1 k
  have hcssorted : hmSorted ((hmSplitOffGe b.height c.index).map
      (fun p => (p.1, (none : Option Hash)))) := by
    unfold hmSorted
    rw [List.pairwise_map]
    exact hmSorted_filter hidxsorted _
  have hcslook : ∀ k, hmLookup ((hmSplitOffGe b.height c.index).map
        (fun p => (p.1, (none : Option Hash)))) k
      = if b.height ≤ k then (hmLookup c.index k).map (fun _ => none) else none := by
    intro k
    rw [hmLookup_map_none, hmLookup_splitOffGe]
    by_cases hk : b.height ≤ k
    · rw [if_pos hk, if_pos hk]
    · rw [if_neg hk, if_neg hk]
      rfl
  refine ⟨?_, ?_, ?_⟩
  · intro habs
    unfold LocalChain.disconnect_from
    rw [if_pos habs]
  · intro hpres hpos
    have hcsb : hmLookup ((hmSplitOffGe b.height c.index).map
        (fun p => (p.1, (none : Option Hash)))) b.height = some none := by
      rw [hcslook, if_pos (Nat.le_refl _), hpres]
      rfl
    cases hcs : ((hmSplitOffGe b.height c.index).map
        (fun p : Nat × Hash => (p.1, (none : Option Hash)))) with
    | nil =>
      exfalso
      rw [hcs] at hcsb
      cases hcsb
    | cons e csrest =>
      obtain ⟨start, v0⟩ := e
      have hkeys : ∀ k v, hmLookup ((start, v0) :: csrest) k = some v → b.height ≤ k := by
        intro k v hl
        have h1 : hmLookup ((hmSplitOffGe b.height c.index).map
            (fun p => (p.1, (none : Option Hash)))) k = some v := by rw [hcs]; exact hl
        rw [hcslook] at h1
        by_cases hk : b.height ≤ k
        · exact hk
        · rw [if_neg hk] at h1; cases h1
      have hstart : b.height ≤ start := by
        apply hkeys start v0
        rw [hmLookup_cons_self]
      have hcs2 : hmSorted ((start, v0) :: csrest) := by rw [← hcs]; exact hcssorted
      have hbase : ∃ nd ∈ c.tip.toList, nd.height < start := by
        obtain ⟨g, hg2⟩ := Option.isSome_iff_exists.mp hg
        have h0 : hashAt c.tip.toList 0 = some g := by rw [← hidxlook]; exact hg2
        obtain ⟨nd, hmem, hh, _⟩ := hashAt_some_elim h0
        exact ⟨nd, hmem, by omega⟩
      obtain ⟨c', hok, hwf2, hbd, heff⟩ := apply_changeset_base hwf hcs2 hbase
      refine ⟨c', ?_, hwf2, hbd, ?_⟩
      · unfold LocalChain.disconnect_from
        rw [if_neg (fun hne => hne hpres)]
        dsimp only
        rw [show c.apply_changeset
            ((hmSplitOffGe b.height c.index).map (fun p => (p.1, none))) =
            c.apply_changeset ((start, v0) :: csrest) by rw [hcs]]
        rw [hok, hcs]
      · intro k
        rw [heff k]
        rw [show hmLookup ((start, v0) :: csrest) k =
            hmLookup ((hmSplitOffGe b.height c.index).map (fun p => (p.1, none))) k by
          rw [hcs]]
        rw [hcslook]
        by_cases hk : b.height ≤ k
        · rw [if_pos hk, if_pos hk]
          cases hmLookup c.index k <;> rfl
        · rw [if_neg hk, if_neg hk]
  · intro hpres h0
    rw [h0] at hpres
    obtain ⟨mrest, hm⟩ := sorted_head_zero hidxsorted hpres
    have hsz : hmSplitOffGe b.height c.index = c.index := by
      rw [h0]
      exact hmSplitOffGe_zero _
    have hcsform : (hmSplitOffGe b.height c.index).map
        (fun p : Nat × Hash => (p.1, (none : Option Hash))) =
        (0, none) :: mrest.map (fun p => (p.1, none)) := by
      rw [hsz, hm]
      rfl
    have hcs2 : hmSorted ((0, (none : Option Hash)) :: mrest.map (fun p => (p.1, none))) := by
      rw [← hcsform]
      exact hcssorted
    have hfail := @apply_changeset_fail c 0 none (mrest.map (fun p => (p.1, none)))
      hwf hcs2 (fun nd _ => Nat.zero_le _) (fun _ => rfl)
    unfold LocalChain.disconnect_from
    rw [if_neg (fun hne => hne (by rw [h0]; exact hpres))]
    dsimp only
    rw [show c.apply_changeset
        ((hmSplitOffGe b.height c.index).map (fun p => (p.1, none))) =
        c.apply_changeset ((0, none) :: mrest.map (fun p => (p.1, none))) by
      rw [hcsform]]
    rw [hfail]

/-- C8 counterexample: disconnecting the genesis block, and disconnecting
the tip of a `from_block_id` chain (whose list does not reach the indexed
genesis), both return `MissingGenesisError` instead of the claimed
changeset. -/
theorem claim_C8_counterexample :
    genChain.disconnect_from ⟨0, 1⟩ = .err genChain ⟨⟩ ∧
    blockIdChain.disconnect_from ⟨5, 2⟩ = .err blockIdChain ⟨⟩ :=
  ⟨by decide, by decide⟩

/-- A concrete three-block chain for the C8 witness. -/
def discChain : LocalChain :=
  { tip := .cons ⟨5, 3⟩ (.cons ⟨3, 2⟩ (.base ⟨0, 1⟩)),
    index := [(0, 1), (3, 2), (5, 3)], birthday := 0 }

/-- C8 witness: disconnecting `(3, 2)` from `{0:1, 3:2, 5:3}` removes
heights 3 and 5. -/
theorem claim_C8_witness :
    WF discChain ∧ (hmLookup discChain.index 0).isSome = true ∧
    hmLookup discChain.index 3 = some 2 ∧ (0 : Nat) < 3 ∧
    ∃ c', discChain.disconnect_from ⟨3, 2⟩ =
        .ok c' ((hmSplitOffGe 3 discChain.index).map (fun p => (p.1, none))) ∧
      WF c' ∧ c'.birthday = discChain.birthday ∧
      ∀ k, hmLookup c'.index k =
        if 3 ≤ k then none else hmLookup discChain.index k :=
  ⟨by decide, by decide, by decide, by decide,
   (claim_C8_disconnect discChain ⟨3, 2⟩ (by decide) (by decide)).2.1 (by decide)
     (by decide)⟩

/-! ### Well-formedness preservation for every constructor and mutator -/

theorem reindexGo_zero : ∀ (cp : CheckPoint) (acc : HMap Hash),
    reindexGo 0 acc cp = histGo acc cp.toList := by
  intro cp
  induction cp with
  | base b =>
    intro acc
    simp [reindexGo, toList_base, histGo]
  | cons b p ih =>
    intro acc
    rw [show reindexGo 0 acc (.cons b p) =
        reindexGo 0 (hmInsert acc b.height b.hash) p by simp [reindexGo]]
    rw [ih, toList_cons]
    rfl

theorem from_tip_char {tip : CheckPoint} {c : LocalChain}
    (h : LocalChain.from_tip tip = .ok c) :
    c.tip = tip ∧ c.index = tipHistory c.tip ∧ c.birthday = 0 := by
  unfold LocalChain.from_tip at h
  dsimp only at h
  split at h
  · cases h
  · cases h
    refine ⟨rfl, ?_, rfl⟩
    show LocalChain.reindexIdx _ 0 = _
    unfold LocalChain.reindexIdx
    rw [show hmKeepLt 0 ([] : HMap Hash) = [] from rfl]
    exact reindexGo_zero tip []

theorem from_blocks_wf {blocks : HMap Hash} {c : LocalChain} (hs : hmSorted blocks)
    (h : LocalChain.from_blocks blocks = .ok c) : WF c := by
  have hg : (hmLookup blocks 0).isSome = true := by
    by_contra hcon
    have hn : (hmLookup blocks 0).isNone = true := by
      cases hl : hmLookup blocks 0 with
      | none => rfl
      | some v => rw [hl] at hcon; simp at hcon
    unfold LocalChain.from_blocks at h
    rw [if_pos hn] at h
    cases h
  obtain ⟨c2, hok, _, _, _, hwf⟩ := from_blocks_ok hs hg
  rw [hok] at h
  cases h
  exact hwf

theorem from_changeset_wf {cs : ChangeSet} {c : LocalChain} (hs : hmSorted cs)
    (h : LocalChain.from_changeset cs = .ok c) : WF c := by
  unfold LocalChain.from_changeset at h
  cases hj : (hmLookup cs 0).join with
  | none => rw [hj] at h; cases h
  | some g =>
    rw [hj] at h
    dsimp only at h
    cases hac : (LocalChain.from_genesis_hash g).1.apply_changeset cs with
    | ok c2 v =>
      cases v
      rw [hac] at h
      cases h
      exact (apply_changeset_wf (from_genesis_wf g) hs hac).1
    | err s e => rw [hac] at h; cases h
    | diverged => rw [hac] at h; cases h

theorem apply_update_wf {c : LocalChain} {u : Update} {c' : LocalChain} {cs : ChangeSet}
    (hwf : WF c) (h : c.apply_update u = .ok c' cs) : WF c' := by
  obtain ⟨hm, hac⟩ := apply_update_ok h
  exact (apply_changeset_wf hwf (merge_chains_sorted hm) hac).1

theorem insert_block_wf {c : LocalChain} {b : BlockId} {c' : LocalChain} {cs : ChangeSet}
    (hwf : WF c) (h : c.insert_block b = .ok c' cs) : WF c' := by
  unfold LocalChain.insert_block at h
  cases hl : hmLookup c.index b.height with
  | some orig =>
    rw [hl] at h
    dsimp only at h
    split at h
    · cases h
    · cases h
      exact hwf
  | none =>
    rw [hl] at h
    dsimp only at h
    cases hac : c.apply_changeset (hmInsert [] b.height (some b.hash)) with
    | ok s v =>
      cases v
      rw [hac] at h
      cases h
      exact (apply_changeset_wf hwf
        (by exact hmSorted_insert List.Pairwise.nil _ _) hac).1
    | err s e =>
      rw [hac] at h
      dsimp only at h
      cases hg : hmLookup s.index 0 with
      | none => rw [hg] at h; cases h
      | some g => rw [hg] at h; cases h
    | diverged => rw [hac] at h; cases h

theorem disconnect_from_wf {c : LocalChain} {b : BlockId} {c' : LocalChain} {cs : ChangeSet}
    (hwf : WF c) (h : c.disconnect_from b = .ok c' cs) : WF c' := by
  unfold LocalChain.disconnect_from at h
  split at h
  · cases h
    exact hwf
  · dsimp only at h
    cases hac : c.apply_changeset
        ((hmSplitOffGe b.height c.index).map (fun p => (p.1, none))) with
    | ok s v =>
      cases v
      rw [hac] at h
      cases h
      refine (apply_changeset_wf hwf ?_ hac).1
      unfold hmSorted
      rw [List.pairwise_map]
      apply hmSorted_filter _ _
      rw [hwf.2]
      exact tipHistory_sorted _
    | err s e => rw [hac] at h; cases h
    | diverged => rw [hac] at h; cases h

theorem apply_header_connected_to_wf {c : LocalChain} {hd : Header} {height : Nat}
    {conn : BlockId} {c' : LocalChain} {cs : ChangeSet} (hwf : WF c)
    (h : c.apply_header_connected_to hd height conn = .ok c' cs) : WF c' := by
  have hfin : ∀ (co pr : Option BlockId) (th : BlockId),
      LocalChain.applyHeaderFinish c co pr th = .ok c' cs → WF c' := by
    intro co pr th hf
    unfold LocalChain.applyHeaderFinish at hf
    cases hcp : CheckPoint.from_block_ids ([co, pr, some th].filterMap id) with
    | error x => rw [hcp] at hf; cases hf
    | ok tip =>
      rw [hcp] at hf
      dsimp only at hf
      cases hau : c.apply_update ⟨tip, false⟩ with
      | ok s cs2 =>
        rw [hau] at hf
        cases hf
        exact apply_update_wf hwf hau
      | err s e2 => rw [hau] at hf; cases hf
      | diverged => rw [hau] at hf; cases hf
  unfold LocalChain.apply_header_connected_to at h
  dsimp only at h
  split at h
  · split at h
    · exact hfin _ _ _ h
    · split at h
      · cases h
      · exact hfin _ _ _ h
  · split at h
    · exact hfin _ _ _ h
    · split at h
      · cases h
      · exact hfin _ _ _ h

theorem apply_header_wf {c : LocalChain} {hd : Header} {height : Nat}
    {c' : LocalChain} {cs : ChangeSet} (hwf : WF c)
    (h : c.apply_header hd height = .ok c' cs) : WF c' := by
  unfold LocalChain.apply_header at h
  dsimp only at h
  cases hin : c.apply_header_connected_to hd height
      (if height = 0 then ⟨height, hd.block_hash⟩ else ⟨height - 1, hd.prev_blockhash⟩) with
  | ok s cs2 =>
    rw [hin] at h
    cases h
    exact apply_header_connected_to_wf hwf hin
  | err s e =>
    rw [hin] at h
    cases e with
    | InconsistentBlocks => cases h
    | CannotConnect e2 => cases h
  | diverged => rw [hin] at h; cases h

/-- C7 (amended): after every successful constructor except `from_block_id`
and after every successful mutator on a well-formed chain, the index equals
the `(height, hash)` map reachable from the tip (and the tip list remains
strictly descending).  `from_block_id` is the exception exhibited by the
counterexample. -/
theorem claim_C7_index_reachable :
    (∀ g, WF (LocalChain.from_genesis_hash g).1) ∧
    (∀ tip c, LocalChain.from_tip tip = .ok c →
      c.index = tipHistory c.tip ∧ (StrictDesc tip.toList → WF c)) ∧
    (∀ blocks c, hmSorted blocks → LocalChain.from_blocks blocks = .ok c → WF c) ∧
    (∀ cs c, hmSorted cs → LocalChain.from_changeset cs = .ok c → WF c) ∧
    (∀ c cs c', WF c → hmSorted cs → c.apply_changeset cs = .ok c' () → WF c') ∧
    (∀ c u c' cs, WF c → c.apply_update u = .ok c' cs → WF c') ∧
    (∀ c b c' cs, WF c → c.insert_block b = .ok c' cs → WF c') ∧
    (∀ c b c' cs, WF c → c.disconnect_from b = .ok c' cs → WF c') ∧
    (∀ c hd height conn c' cs, WF c →
      c.apply_header_connected_to hd height conn = .ok c' cs → WF c') ∧
    (∀ c hd height c' cs, WF c → c.apply_header hd height = .ok c' cs → WF c') :=
  ⟨from_genesis_wf,
   fun tip c h =>
     ⟨(from_tip_char h).2.1,
      fun hdesc => ⟨by rw [(from_tip_char h).1]; exact hdesc, (from_tip_char h).2.1⟩⟩,
   fun _ _ hs h => from_blocks_wf hs h,
   fun _ _ hs h => from_changeset_wf hs h,
   fun _ _ _ hwf hs h => (apply_changeset_wf hwf hs h).1,
   fun _ _ _ _ hwf h => apply_update_wf hwf h,
   fun _ _ _ _ hwf h => insert_block_wf hwf h,
   fun _ _ _ _ hwf h => disconnect_from_wf hwf h,
   fun _ _ _ _ _ _ hwf h => apply_header_connected_to_wf hwf h,
   fun _ _ _ _ _ hwf h => apply_header_wf hwf h⟩

/-- C7 counterexample: `from_block_id` produces a chain whose index
contains the genesis entry although the tip's linked list does not reach
it, so the index is not the tip-reachable map. -/
theorem claim_C7_counterexample :
    (LocalChain.from_block_id 1 ⟨5, 2⟩).1.index = [(0, 1), (5, 2)] ∧
    tipHistory (LocalChain.from_block_id 1 ⟨5, 2⟩).1.tip = [(5, 2)] ∧
    ¬ (LocalChain.from_block_id 1 ⟨5, 2⟩).1.index =
        tipHistory (LocalChain.from_block_id 1 ⟨5, 2⟩).1.tip :=
  ⟨by decide, by decide, by decide⟩

/-- C7 witness: a sorted two-entry changeset builds a well-formed chain
through `from_changeset`. -/
theorem claim_C7_witness :
    hmSorted ([(0, some 1), (2, some 5)] : ChangeSet) ∧
    LocalChain.from_changeset [(0, some 1), (2, some 5)] =
      .ok { tip := .cons ⟨2, 5⟩ (.base ⟨0, 1⟩), index := [(0, 1), (2, 5)], birthday := 0 } ∧
    WF { tip := .cons ⟨2, 5⟩ (.base ⟨0, 1⟩), index := [(0, 1), (2, 5)], birthday := 0 } :=
  ⟨by decide, by decide,
   claim_C7_index_reachable.2.2.2.1 [(0, some 1), (2, some 5)] _ (by decide) (by decide)⟩

/-! ### The merge invariant (claim C1) -/

/-- After the point of agreement is found the loop always succeeds, and it
only touches changeset keys among the remaining heights and the pending
invalidation heights. -/
theorem mergeLoop_poa {introduce : Bool} :
    ∀ (fuel : Nat) (o u : List BlockId) (s : MergeState),
    o.length + u.length ≤ fuel → s.poaFound = true →
    ∃ cs, mergeLoop introduce fuel o u s = .ok cs ∧
      ∀ k, k ∉ heights o → k ∉ heights u → k ∉ s.potInv →
        hmLookup cs k = hmLookup s.changeset k := by
  intro fuel
  induction fuel with
  | zero =>
    intro o u s hlen hpoa
    cases o with
    | nil =>
      cases u with
      | nil =>
        refine ⟨s.changeset, ?_, fun k _ _ _ => rfl⟩
        show mergeFinish s = _
        unfold mergeFinish
        rw [if_neg (by rw [hpoa]; simp)]
      | cons uh us => simp at hlen
    | cons oh os =>
      cases u with
      | nil =>
        refine ⟨s.changeset, ?_, fun k _ _ _ => rfl⟩
        show mergeFinish _ = _
        unfold mergeFinish
        rw [if_neg (by rw [hpoa]; simp)]
      | cons uh us => simp at hlen
  | succ fuel ih =>
    intro o u s hlen hpoa
    cases o with
    | nil =>
      cases u with
      | nil =>
        refine ⟨s.changeset, ?_, fun k _ _ _ => rfl⟩
        show mergeFinish s = _
        unfold mergeFinish
        rw [if_neg (by rw [hpoa]; simp)]
      | cons uh us =>
        obtain ⟨cs, hok, hid⟩ := ih [] us
          { s with changeset := hmInsert s.changeset uh.height (some uh.hash),
                   prevUpdate := some uh }
          (by simp at hlen ⊢; omega) hpoa
        refine ⟨cs, hok, ?_⟩
        intro k hko hku hkp
        rw [hid k hko (by intro hc; exact hku (by simp [heights] at hc ⊢; exact Or.inr hc))
          hkp]
        show hmLookup (hmInsert s.changeset uh.height (some uh.hash)) k = _
        rw [hmLookup_insert, if_neg (by intro hc; exact hku (by simp [heights, hc]))]
    | cons oh os =>
      cases u with
      | nil =>
        refine ⟨s.changeset, ?_, fun k _ _ _ => rfl⟩
        show mergeFinish _ = _
        unfold mergeFinish
        rw [if_neg (by rw [hpoa]; simp)]
      | cons uh us =>
        simp only [mergeLoop]
        by_cases h1 : oh.height < uh.height
        · rw [if_pos h1]
          obtain ⟨cs, hok, hid⟩ := ih (oh :: os) us
            { s with changeset := hmInsert s.changeset uh.height (some uh.hash),
                     prevUpdate := some uh }
            (by simp at hlen ⊢; omega) hpoa
          refine ⟨cs, hok, ?_⟩
          intro k hko hku hkp
          rw [hid k hko
            (by intro hc; exact hku (by simp [heights] at hc ⊢; exact Or.inr hc)) hkp]
          show hmLookup (hmInsert s.changeset uh.height (some uh.hash)) k = _
          rw [hmLookup_insert, if_neg (by intro hc; exact hku (by simp [heights, hc]))]
        · rw [if_neg h1]
          by_cases h2 : uh.height < oh.height
          · rw [if_pos h2]
            obtain ⟨cs, hok, hid⟩ := ih os (uh :: us)
              { s with potInv := s.potInv ++ [oh.height], prevOrigInv := false,
                       prevOrig := some oh }
              (by simp at hlen ⊢; omega) hpoa
            refine ⟨cs, hok, ?_⟩
            intro k hko hku hkp
            refine hid k
              (by intro hc; exact hko (by simp [heights] at hc ⊢; exact Or.inr hc)) hku ?_
            show k ∉ s.potInv ++ [oh.height]
            intro hc
            rcases List.mem_append.mp hc with hc2 | hc2
            · exact hkp hc2
            · rcases List.mem_singleton.mp hc2 with rfl
              exact hko (by simp [heights])
          · rw [if_neg h2]
            by_cases h3 : oh.hash = uh.hash
            · rw [if_pos h3, if_neg (by rw [hpoa]; simp)]
              by_cases h4 : introduce = false
              · rw [if_pos h4]
                exact ⟨s.changeset, rfl, fun k _ _ _ => rfl⟩
              · rw [if_neg h4]
                obtain ⟨cs, hok, hid⟩ := ih os us
                  { s with poaFound := true, prevOrigInv := false,
                           prevOrig := some oh, prevUpdate := some uh }
                  (by simp at hlen ⊢; omega) rfl
                refine ⟨cs, hok, ?_⟩
                intro k hko hku hkp
                exact hid k
                  (by intro hc; exact hko (by simp [heights] at hc ⊢; exact Or.inr hc))
                  (by intro hc; exact hku (by simp [heights] at hc ⊢; exact Or.inr hc)) hkp
            · rw [if_neg h3]
              obtain ⟨cs, hok, hid⟩ := ih os us
                { s with
                  changeset := drainInv (hmInsert s.changeset uh.height (some uh.hash))
                    s.potInv,
                  potInv := [], prevOrigInv := true,
                  prevOrig := some oh, prevUpdate := some uh }
                (by simp at hlen ⊢; omega) hpoa
              refine ⟨cs, hok, ?_⟩
              intro k hko hku hkp
              rw [hid k
                (by intro hc; exact hko (by simp [heights] at hc ⊢; exact Or.inr hc))
                (by intro hc; exact hku (by simp [heights] at hc ⊢; exact Or.inr hc))
                (by simp)]
              show hmLookup (drainInv (hmInsert s.changeset uh.height (some uh.hash))
                s.potInv) k = _
              rw [hmLookup_drainInv, if_neg hkp, hmLookup_insert,
                if_neg (by intro hc; exact hku (by simp [heights, hc]))]


/-! ### Claim C1: the changeset produced by a successful merge -/

theorem heights_append (l1 l2 : List BlockId) :
    heights (l1 ++ l2) = heights l1 ++ heights l2 :=
  List.map_append _ _ _

theorem mem_heights {l : List BlockId} {k : Nat} :
    k ∈ heights l ↔ ∃ b ∈ l, b.height = k :=
  List.mem_map

/-- Exit analysis for the loop finishing with both cursors exhausted: the
consumed prefixes are the full chains, and the finish check succeeding means
either a reorg was recorded (`prev_orig_was_invalidated`) or the original
chain was empty. -/
theorem merge_nilnil_goals
    {O U : List BlockId} {s : MergeState} {cs : ChangeSet}
    (hpoa : s.poaFound = false)
    (h2 : ∀ b ∈ U, hmLookup s.changeset b.height = some (some b.hash))
    (h3 : ∀ b ∈ O, b.height ∉ heights U →
      (b.height ∈ s.potInv ∨ hmLookup s.changeset b.height = some none))
    (h4 : s.prevOrigInv = true → s.potInv = [])
    (h6 : s.prevOrig.isSome = true ↔ O ≠ [])
    (hok : mergeFinish s = .ok cs) :
    (∀ b ∈ O, ∀ y, hashAt U b.height = some y → b.hash ≠ y →
      aboveAllAgree O U b.height → hmLookup cs b.height = some (some y)) ∧
    (diffAboveAgree O U →
      ∀ b ∈ O, hashAt U b.height = none → aboveAllAgree O U b.height →
        hmLookup cs b.height = some none) := by
  unfold mergeFinish at hok
  by_cases hinv : s.prevOrigInv = false
  · rw [if_pos (And.intro hinv hpoa)] at hok
    cases hpo : s.prevOrig with
    | some po =>
      rw [hpo] at hok
      cases hok
    | none =>
      rw [hpo] at hok
      have hOnil : O = [] := by
        by_contra hne
        have hs := h6.mpr hne
        rw [hpo] at hs
        simp at hs
      have hok' : (Except.ok s.changeset : Except CannotConnectError ChangeSet) = .ok cs := hok
      injection hok' with he
      subst he
      constructor
      · intro b hb
        exact absurd (hOnil ▸ hb) (List.not_mem_nil b)
      · intro _ b hb
        exact absurd (hOnil ▸ hb) (List.not_mem_nil b)
  · have hnc : ¬(s.prevOrigInv = false ∧ s.poaFound = false) := fun hc => hinv hc.1
    rw [if_neg hnc] at hok
    have hinvT : s.prevOrigInv = true := by
      cases hb : s.prevOrigInv
      · exact absurd hb hinv
      · rfl
    have hPnil := h4 hinvT
    injection hok with he
    subst he
    constructor
    · intro b hbO y hy hne hab
      obtain ⟨b', hb'U, hb'h, hb'hash⟩ := hashAt_some_elim hy
      have hl := h2 b' hb'U
      rw [hb'h, hb'hash] at hl
      exact hl
    · intro hdiff b hbO hynone hab
      have hnotU : b.height ∉ heights U := by
        intro hc
        obtain ⟨b', hb', hbh⟩ := mem_heights.mp hc
        have hsome := hashAt_isSome_of_mem hb'
        rw [hbh, hynone] at hsome
        simp at hsome
      rcases h3 b hbO hnotU with h | h
      · rw [hPnil] at h
        exact absurd h (List.not_mem_nil _)
      · exact h

/-- Exit analysis for the loop stopping at a point of agreement `oh = uh`
(same height, same hash): provided the final changeset agrees with the
running changeset above the agreement height (outside the pending
invalidation list), both parts of the merge postcondition hold. -/
theorem merge_samePair_goals
    {O U co cu os us : List BlockId} {oh uh : BlockId}
    {s : MergeState} {cs : ChangeSet}
    (hO : StrictDesc O) (hU : StrictDesc U)
    (hOc : O = co ++ oh :: os) (hUc : U = cu ++ uh :: us)
    (hhe : uh.height = oh.height) (hhash : oh.hash = uh.hash)
    (h2 : ∀ b ∈ cu, hmLookup s.changeset b.height = some (some b.hash))
    (h3 : ∀ b ∈ co, b.height ∉ heights cu →
      (b.height ∈ s.potInv ∨ hmLookup s.changeset b.height = some none))
    (h8 : ∀ b ∈ cu, uh.height < b.height)
    (h9 : ∀ k ∈ s.potInv, k ∉ heights U)
    (hPor : s.potInv = [] ∨ cu = [])
    (hcs : ∀ k, oh.height < k → k ∉ s.potInv →
      hmLookup cs k = hmLookup s.changeset k) :
    (∀ b ∈ O, ∀ y, hashAt U b.height = some y → b.hash ≠ y →
      aboveAllAgree O U b.height → hmLookup cs b.height = some (some y)) ∧
    (diffAboveAgree O U →
      ∀ b ∈ O, hashAt U b.height = none → aboveAllAgree O U b.height →
        hmLookup cs b.height = some none) := by
  have hos : ∀ x ∈ os, x.height < oh.height :=
    (StrictDesc_cons.mp (StrictDesc_append.mp (hOc ▸ hO)).2.1).1
  have hus : ∀ x ∈ us, x.height < uh.height :=
    (StrictDesc_cons.mp (StrictDesc_append.mp (hUc ▸ hU)).2.1).1
  have hohO : oh ∈ O := by
    rw [hOc]
    exact List.mem_append_right _ (List.mem_cons_self _ _)
  have hagree : hashAt U oh.height = some oh.hash := by
    rw [hUc, hashAt_append]
    have hnone : hashAt cu oh.height = none := by
      rw [hashAt_eq_none_iff]
      intro b hb
      have := h8 b hb
      omega
    rw [hnone, hashAt_cons, if_pos hhe]
    simp [hhash]
  have habove : ∀ {k : Nat}, aboveAllAgree O U k → oh.height < k :=
    fun hab => hab oh hohO hagree
  have hmemcu : ∀ b ∈ U, oh.height < b.height → b ∈ cu := by
    intro b hb hgt
    rw [hUc] at hb
    rcases List.mem_append.mp hb with h | h
    · exact h
    · rcases List.mem_cons.mp h with rfl | h
      · omega
      · have := hus b h
        omega
  have hmemco : ∀ b ∈ O, oh.height < b.height → b ∈ co := by
    intro b hb hgt
    rw [hOc] at hb
    rcases List.mem_append.mp hb with h | h
    · exact h
    · rcases List.mem_cons.mp h with rfl | h
      · omega
      · have := hos b h
        omega
  constructor
  · intro b hbO y hy hne hab
    have hgt := habove hab
    obtain ⟨b', hb'U, hb'h, hb'hash⟩ := hashAt_some_elim hy
    have hb'cu : b' ∈ cu := hmemcu b' hb'U (by omega)
    have hbP : b.height ∉ s.potInv := by
      intro hc
      exact (h9 _ hc) (mem_heights.mpr ⟨b', hb'U, hb'h⟩)
    rw [hcs b.height hgt hbP]
    have hl := h2 b' hb'cu
    rw [hb'h, hb'hash] at hl
    exact hl
  · intro hdiff b hbO hynone hab
    have hPnil : s.potInv = [] := by
      rcases hPor with h | h
      · exact h
      · obtain ⟨d, hdO, ⟨y, hdy, hdne⟩, hdab⟩ := hdiff
        obtain ⟨d', hd'U, hd'h, hd'hash⟩ := hashAt_some_elim hdy
        have hdgt := habove hdab
        have hd'cu : d' ∈ cu := hmemcu d' hd'U (by omega)
        rw [h] at hd'cu
        exact absurd hd'cu (List.not_mem_nil d')
    have hgt := habove hab
    have hbco := hmemco b hbO hgt
    have hnotcu : b.height ∉ heights cu := by
      intro hc
      obtain ⟨b', hb', hbh⟩ := mem_heights.mp hc
      have hb'U : b' ∈ U := by
        rw [hUc]
        exact List.mem_append_left _ hb'
      have hsome := hashAt_isSome_of_mem hb'U
      rw [hbh, hynone] at hsome
      simp at hsome
    have hbP : b.height ∉ s.potInv := by
      rw [hPnil]
      exact List.not_mem_nil _
    rw [hcs b.height hgt hbP]
    rcases h3 b hbco hnotcu with h | h
    · rw [hPnil] at h
      exact absurd h (List.not_mem_nil _)
    · exact h

/-- Main loop invariant for `merge_chains` before a point of agreement is
found: `co`/`cu` are the already-consumed prefixes of the original and
update chains, consumed update blocks are recorded in the changeset,
consumed original-only blocks are pending invalidation or already
invalidated, and the bookkeeping fields track emptiness of the prefixes.
On a successful run, every height carrying differing hashes in the two
chains and lying strictly above every agreement height maps to the update
hash, and if such a height exists, every original-only height strictly
above every agreement height maps to `none`. -/
theorem mergeLoop_master {introduce : Bool} {O U : List BlockId}
    (hO : StrictDesc O) (hU : StrictDesc U) :
    ∀ (fuel : Nat) (o u co cu : List BlockId) (s : MergeState),
    o.length + u.length ≤ fuel →
    O = co ++ o → U = cu ++ u →
    s.poaFound = false →
    (∀ b ∈ cu, hmLookup s.changeset b.height = some (some b.hash)) →
    (∀ b ∈ co, b.height ∉ heights cu →
      (b.height ∈ s.potInv ∨ hmLookup s.changeset b.height = some none)) →
    (s.prevOrigInv = true → s.potInv = []) →
    (s.prevUpdate.isSome = true ↔ cu ≠ []) →
    (s.prevOrig.isSome = true ↔ co ≠ []) →
    (∀ b ∈ co, (∀ x ∈ o, x.height < b.height) ∧ (∀ x ∈ u, x.height < b.height)) →
    (∀ b ∈ cu, (∀ x ∈ o, x.height < b.height) ∧ (∀ x ∈ u, x.height < b.height)) →
    (∀ k ∈ s.potInv, k ∈ heights co ∧ k ∉ heights U) →
    ∀ cs, mergeLoop introduce fuel o u s = .ok cs →
    (∀ b ∈ O, ∀ y, hashAt U b.height = some y → b.hash ≠ y →
      aboveAllAgree O U b.height → hmLookup cs b.height = some (some y)) ∧
    (diffAboveAgree O U →
      ∀ b ∈ O, hashAt U b.height = none → aboveAllAgree O U b.height →
        hmLookup cs b.height = some none) := by
  intro fuel
  induction fuel with
  | zero =>
    intro o u co cu s hlen hOc hUc hpoa h2 h3 h4 h5 h6 h7 h8 h9 cs hok
    cases o with
    | nil =>
      cases u with
      | nil =>
        have hco : co = O := by rw [hOc, List.append_nil]
        have hcu : cu = U := by rw [hUc, List.append_nil]
        subst hco
        subst hcu
        exact merge_nilnil_goals hpoa h2 h3 h4 h6 hok
      | cons uh us =>
        simp only [List.length_cons, List.length_nil] at hlen
        omega
    | cons oh os =>
      simp only [List.length_cons] at hlen
      omega
  | succ fuel ih =>
    intro o u co cu s hlen hOc hUc hpoa h2 h3 h4 h5 h6 h7 h8 h9 cs hok
    cases o with
    | nil =>
      cases u with
      | nil =>
        have hco : co = O := by rw [hOc, List.append_nil]
        have hcu : cu = U := by rw [hUc, List.append_nil]
        subst hco
        subst hcu
        exact merge_nilnil_goals hpoa h2 h3 h4 h6 hok
      | cons uh us =>
        have hus : ∀ x ∈ us, x.height < uh.height :=
          (StrictDesc_cons.mp (StrictDesc_append.mp (hUc ▸ hU)).2.1).1
        have hok' : mergeLoop introduce fuel [] us
            { s with changeset := hmInsert s.changeset uh.height (some uh.hash),
                     prevUpdate := some uh } = .ok cs := hok
        refine ih [] us co (cu ++ [uh])
          { s with changeset := hmInsert s.changeset uh.height (some uh.hash),
                   prevUpdate := some uh }
          ?_ hOc ?_ hpoa ?_ ?_ h4 ?_ h6 ?_ ?_ ?_ cs hok'
        · simp only [List.length_cons, List.length_nil] at hlen ⊢
          omega
        · rw [hUc]
          simp
        · intro b hb
          rcases List.mem_append.mp hb with h | h
          · have hne : b.height ≠ uh.height := by
              have := (h8 b h).2 uh (List.mem_cons_self _ _)
              omega
            show hmLookup (hmInsert s.changeset uh.height (some uh.hash)) b.height = _
            rw [hmLookup_insert, if_neg hne]
            exact h2 b h
          · rcases List.mem_singleton.mp h with rfl
            show hmLookup (hmInsert s.changeset b.height (some b.hash)) b.height = _
            rw [hmLookup_insert, if_pos rfl]
        · intro b hb hnot
          have hnot' : b.height ∉ heights cu := by
            intro hc
            exact hnot (by rw [heights_append]; exact List.mem_append_left _ hc)
          rcases h3 b hb hnot' with hP | hL
          · exact Or.inl hP
          · refine Or.inr ?_
            have hne : b.height ≠ uh.height := by
              have := (h7 b hb).2 uh (List.mem_cons_self _ _)
              omega
            show hmLookup (hmInsert s.changeset uh.height (some uh.hash)) b.height = _
            rw [hmLookup_insert, if_neg hne]
            exact hL
        · simp
        · intro b hb
          exact ⟨(h7 b hb).1, fun x hx => (h7 b hb).2 x (List.mem_cons_of_mem _ hx)⟩
        · intro b hb
          rcases List.mem_append.mp hb with h | h
          · exact ⟨(h8 b h).1, fun x hx => (h8 b h).2 x (List.mem_cons_of_mem _ hx)⟩
          · rcases List.mem_singleton.mp h with rfl
            exact ⟨fun x hx => absurd hx (List.not_mem_nil x), fun x hx => hus x hx⟩
        · exact h9
    | cons oh os =>
      have hos : ∀ x ∈ os, x.height < oh.height :=
        (StrictDesc_cons.mp (StrictDesc_append.mp (hOc ▸ hO)).2.1).1
      cases u with
      | nil =>
        exfalso
        have hok' : mergeFinish
            { s with potInv := s.potInv ++ [oh.height], prevOrigInv := false,
                     prevOrig := some oh } = .ok cs := hok
        unfold mergeFinish at hok'
        dsimp only at hok'
        rw [hpoa] at hok'
        simp at hok'
      | cons uh us =>
        have hus : ∀ x ∈ us, x.height < uh.height :=
          (StrictDesc_cons.mp (StrictDesc_append.mp (hUc ▸ hU)).2.1).1
        simp only [mergeLoop] at hok
        by_cases h1 : oh.height < uh.height
        · rw [if_pos h1] at hok
          refine ih (oh :: os) us co (cu ++ [uh])
            { s with changeset := hmInsert s.changeset uh.height (some uh.hash),
                     prevUpdate := some uh }
            ?_ hOc ?_ hpoa ?_ ?_ h4 ?_ h6 ?_ ?_ ?_ cs hok
          · simp only [List.length_cons] at hlen ⊢
            omega
          · rw [hUc]
            simp
          · intro b hb
            rcases List.mem_append.mp hb with h | h
            · have hne : b.height ≠ uh.height := by
                have := (h8 b h).2 uh (List.mem_cons_self _ _)
                omega
              show hmLookup (hmInsert s.changeset uh.height (some uh.hash)) b.height = _
              rw [hmLookup_insert, if_neg hne]
              exact h2 b h
            · rcases List.mem_singleton.mp h with rfl
              show hmLookup (hmInsert s.changeset b.height (some b.hash)) b.height = _
              rw [hmLookup_insert, if_pos rfl]
          · intro b hb hnot
            have hnot' : b.height ∉ heights cu := by
              intro hc
              exact hnot (by rw [heights_append]; exact List.mem_append_left _ hc)
            rcases h3 b hb hnot' with hP | hL
            · exact Or.inl hP
            · refine Or.inr ?_
              have hne : b.height ≠ uh.height := by
                have := (h7 b hb).2 uh (List.mem_cons_self _ _)
                omega
              show hmLookup (hmInsert s.changeset uh.height (some uh.hash)) b.height = _
              rw [hmLookup_insert, if_neg hne]
              exact hL
          · simp
          · intro b hb
            exact ⟨(h7 b hb).1, fun x hx => (h7 b hb).2 x (List.mem_cons_of_mem _ hx)⟩
          · intro b hb
            rcases List.mem_append.mp hb with h | h
            · exact ⟨(h8 b h).1, fun x hx => (h8 b h).2 x (List.mem_cons_of_mem _ hx)⟩
            · rcases List.mem_singleton.mp h with rfl
              refine ⟨fun x hx => ?_, fun x hx => hus x hx⟩
              rcases List.mem_cons.mp hx with rfl | hx
              · exact h1
              · have := hos x hx
                omega
          · exact h9
        · rw [if_neg h1] at hok
          by_cases h2c : uh.height < oh.height
          · rw [if_pos h2c] at hok
            refine ih os (uh :: us) (co ++ [oh]) cu
              { s with potInv := s.potInv ++ [oh.height], prevOrigInv := false,
                       prevOrig := some oh }
              ?_ ?_ hUc hpoa h2 ?_ ?_ h5 ?_ ?_ ?_ ?_ cs hok
            · simp only [List.length_cons] at hlen ⊢
              omega
            · rw [hOc]
              simp
            · intro b hb hnot
              rcases List.mem_append.mp hb with h | h
              · rcases h3 b h hnot with hP | hL
                · exact Or.inl (List.mem_append_left _ hP)
                · exact Or.inr hL
              · rcases List.mem_singleton.mp h with rfl
                exact Or.inl (List.mem_append_right _ (List.mem_singleton.mpr rfl))
            · exact fun hc => Bool.noConfusion hc
            · simp
            · intro b hb
              rcases List.mem_append.mp hb with h | h
              · exact ⟨fun x hx => (h7 b h).1 x (List.mem_cons_of_mem _ hx), (h7 b h).2⟩
              · rcases List.mem_singleton.mp h with rfl
                refine ⟨fun x hx => hos x hx, fun x hx => ?_⟩
                rcases List.mem_cons.mp hx with rfl | hx
                · exact h2c
                · have := hus x hx
                  omega
            · intro b hb
              exact ⟨fun x hx => (h8 b hb).1 x (List.mem_cons_of_mem _ hx), (h8 b hb).2⟩
            · intro k hk
              rcases List.mem_append.mp hk with hk | hk
              · exact ⟨by rw [heights_append]; exact List.mem_append_left _ (h9 k hk).1,
                  (h9 k hk).2⟩
              · rcases List.mem_singleton.mp hk with rfl
                constructor
                · rw [heights_append]
                  exact List.mem_append_right _ (List.mem_singleton.mpr rfl)
                · intro hc
                  obtain ⟨x, hx, hxk⟩ := mem_heights.mp hc
                  rw [hUc] at hx
                  rcases List.mem_append.mp hx with hx | hx
                  · have := (h8 x hx).1 oh (List.mem_cons_self _ _)
                    omega
                  · rcases List.mem_cons.mp hx with rfl | hx
                    · omega
                    · have := hus x hx
                      omega
          · rw [if_neg h2c] at hok
            have hhe : uh.height = oh.height := by omega
            by_cases h3c : oh.hash = uh.hash
            · rw [if_pos h3c] at hok
              by_cases hcond : s.prevOrigInv = false ∧ s.poaFound = false ∧
                  s.prevOrig.isSome = true ∧ s.prevUpdate.isSome = true
              · rw [if_pos hcond] at hok
                cases hok
              · rw [if_neg hcond] at hok
                have hPor : s.potInv = [] ∨ cu = [] := by
                  by_cases hinv : s.prevOrigInv = true
                  · exact Or.inl (h4 hinv)
                  · have hinvF : s.prevOrigInv = false := by
                      cases hb : s.prevOrigInv
                      · rfl
                      · exact absurd hb hinv
                    by_cases hpo : s.prevOrig.isSome = true
                    · by_cases hpu : s.prevUpdate.isSome = true
                      · exact absurd ⟨hinvF, hpoa, hpo, hpu⟩ hcond
                      · refine Or.inr ?_
                        by_contra hcu
                        exact hpu (h5.mpr hcu)
                    · refine Or.inl ?_
                      have hconil : co = [] := by
                        by_contra hco
                        exact hpo (h6.mpr hco)
                      rw [List.eq_nil_iff_forall_not_mem]
                      intro k hk
                      have hkco := (h9 k hk).1
                      rw [hconil] at hkco
                      exact absurd hkco (by simp [heights])
                by_cases h4c : introduce = false
                · rw [if_pos h4c] at hok
                  injection hok with he
                  subst he
                  exact merge_samePair_goals hO hU hOc hUc hhe h3c h2 h3
                    (fun b hb => (h8 b hb).2 uh (List.mem_cons_self _ _))
                    (fun k hk => (h9 k hk).2) hPor (fun k _ _ => rfl)
                · rw [if_neg h4c] at hok
                  obtain ⟨cs', hok', hid⟩ := mergeLoop_poa fuel os us
                    { s with poaFound := true, prevOrigInv := false,
                             prevOrig := some oh, prevUpdate := some uh }
                    (by simp only [List.length_cons] at hlen; omega) rfl
                  rw [hok'] at hok
                  injection hok with he
                  subst he
                  refine merge_samePair_goals hO hU hOc hUc hhe h3c h2 h3
                    (fun b hb => (h8 b hb).2 uh (List.mem_cons_self _ _))
                    (fun k hk => (h9 k hk).2) hPor ?_
                  intro k hk hkP
                  refine hid k ?_ ?_ hkP
                  · intro hc
                    obtain ⟨x, hx, hxk⟩ := mem_heights.mp hc
                    have := hos x hx
                    omega
                  · intro hc
                    obtain ⟨x, hx, hxk⟩ := mem_heights.mp hc
                    have := hus x hx
                    omega
            · rw [if_neg h3c] at hok
              refine ih os us (co ++ [oh]) (cu ++ [uh])
                { s with
                  changeset := drainInv (hmInsert s.changeset uh.height (some uh.hash))
                    s.potInv,
                  potInv := [], prevOrigInv := true,
                  prevOrig := some oh, prevUpdate := some uh }
                ?_ ?_ ?_ hpoa ?_ ?_ ?_ ?_ ?_ ?_ ?_ ?_ cs hok
              · simp only [List.length_cons] at hlen ⊢
                omega
              · rw [hOc]
                simp
              · rw [hUc]
                simp
              · intro b hb
                show hmLookup (drainInv (hmInsert s.changeset uh.height (some uh.hash))
                  s.potInv) b.height = _
                rcases List.mem_append.mp hb with h | h
                · have hbU : b.height ∈ heights U :=
                    mem_heights.mpr ⟨b, by rw [hUc]; exact List.mem_append_left _ h, rfl⟩
                  have hbP : b.height ∉ s.potInv := fun hc => (h9 _ hc).2 hbU
                  have hne : b.height ≠ uh.height := by
                    have := (h8 b h).2 uh (List.mem_cons_self _ _)
                    omega
                  rw [hmLookup_drainInv, if_neg hbP, hmLookup_insert, if_neg hne]
                  exact h2 b h
                · rcases List.mem_singleton.mp h with rfl
                  have hbU : b.height ∈ heights U :=
                    mem_heights.mpr ⟨b, by
                      rw [hUc]
                      exact List.mem_append_right _ (List.mem_cons_self _ _), rfl⟩
                  have hbP : b.height ∉ s.potInv := fun hc => (h9 _ hc).2 hbU
                  rw [hmLookup_drainInv, if_neg hbP, hmLookup_insert, if_pos rfl]
              · intro b hb hnot
                rcases List.mem_append.mp hb with h | h
                · by_cases hbP : b.height ∈ s.potInv
                  · refine Or.inr ?_
                    show hmLookup (drainInv (hmInsert s.changeset uh.height
                      (some uh.hash)) s.potInv) b.height = some none
                    rw [hmLookup_drainInv, if_pos hbP]
                  · have hnotcu : b.height ∉ heights cu := by
                      intro hc
                      exact hnot (by rw [heights_append]; exact List.mem_append_left _ hc)
                    rcases h3 b h hnotcu with hP | hL
                    · exact absurd hP hbP
                    · refine Or.inr ?_
                      have hne : b.height ≠ uh.height := by
                        intro he
                        exact hnot (by
                          rw [heights_append]
                          exact List.mem_append_right _ (List.mem_singleton.mpr he))
                      show hmLookup (drainInv (hmInsert s.changeset uh.height
                        (some uh.hash)) s.potInv) b.height = some none
                      rw [hmLookup_drainInv, if_neg hbP, hmLookup_insert, if_neg hne]
                      exact hL
                · rcases List.mem_singleton.mp h with rfl
                  exact absurd (by
                    rw [heights_append]
                    exact List.mem_append_right _ (List.mem_singleton.mpr hhe.symm)) hnot
              · exact fun _ => rfl
              · simp
              · simp
              · intro b hb
                rcases List.mem_append.mp hb with h | h
                · exact ⟨fun x hx => (h7 b h).1 x (List.mem_cons_of_mem _ hx),
                    fun x hx => (h7 b h).2 x (List.mem_cons_of_mem _ hx)⟩
                · rcases List.mem_singleton.mp h with rfl
                  refine ⟨fun x hx => hos x hx, fun x hx => ?_⟩
                  have := hus x hx
                  omega
              · intro b hb
                rcases List.mem_append.mp hb with h | h
                · exact ⟨fun x hx => (h8 b h).1 x (List.mem_cons_of_mem _ hx),
                    fun x hx => (h8 b h).2 x (List.mem_cons_of_mem _ hx)⟩
                · rcases List.mem_singleton.mp h with rfl
                  refine ⟨fun x hx => ?_, fun x hx => hus x hx⟩
                  have := hos x hx
                  omega
              · exact fun k hk => nomatch hk


/-- Original chain for the C1 witness scenario: `0:1 - 7:2 - 9:3`. -/
def c1Orig : CheckPoint := .cons ⟨9, 3⟩ (.cons ⟨7, 2⟩ (.base ⟨0, 1⟩))

/-- Update chain for the C1 witness scenario: `0:1 - 7:4` (reorg at 7). -/
def c1Upd : CheckPoint := .cons ⟨7, 4⟩ (.base ⟨0, 1⟩)

/-- C1 (amended): when `merge_chains` returns `Ok(changeset)` on strictly
descending chains, every height carrying differing hashes in the two chains
that lies strictly above every agreement height is mapped in the changeset
to `Some` of the update's hash; and, provided at least one such differing
height exists, every height present only in the original chain that lies
strictly above every agreement height is mapped to `None`. -/
theorem claim_C1 (ot ut : CheckPoint) (introduce : Bool) (cs : ChangeSet)
    (hO : StrictDesc ot.toList) (hU : StrictDesc ut.toList)
    (hok : merge_chains ot ut introduce = .ok cs) :
    (∀ b ∈ ot.toList, ∀ y, hashAt ut.toList b.height = some y → b.hash ≠ y →
      aboveAllAgree ot.toList ut.toList b.height →
      hmLookup cs b.height = some (some y)) ∧
    (diffAboveAgree ot.toList ut.toList →
      ∀ b ∈ ot.toList, hashAt ut.toList b.height = none →
        aboveAllAgree ot.toList ut.toList b.height →
        hmLookup cs b.height = some none) := by
  unfold merge_chains at hok
  refine mergeLoop_master hO hU (ot.toList.length + ut.toList.length)
    ot.toList ut.toList [] [] ⟨[], none, none, false, false, []⟩
    le_rfl rfl rfl rfl ?_ ?_ ?_ ?_ ?_ ?_ ?_ ?_ cs hok
  · exact fun b hb => absurd hb (List.not_mem_nil b)
  · exact fun b hb _ => absurd hb (List.not_mem_nil b)
  · exact fun _ => rfl
  · simp
  · simp
  · exact fun b hb => absurd hb (List.not_mem_nil b)
  · exact fun b hb => absurd hb (List.not_mem_nil b)
  · exact fun k hk => absurd hk (List.not_mem_nil k)

/-- C1 counterexample to the claim as stated.  Part one: with
`introduce_older_blocks = false`, merging original `0:1 - 2:2 - 3:3` with
update `2:5 - 3:3` succeeds with an *empty* changeset although height 2
carries differing hashes in the two chains (the walk stops at the first
agreement, height 3, and never maps height 2).  Part two: merging original
`0:1 - 5:2 - 7:3` with the stale update `5:2` succeeds with an empty
changeset although height 7 is present only in the original chain and lies
strictly above the agreement height 5, yet is not mapped to `None`. -/
theorem claim_C1_counterexample :
    (merge_chains (.cons ⟨3, 3⟩ (.cons ⟨2, 2⟩ (.base ⟨0, 1⟩)))
        (.cons ⟨3, 3⟩ (.base ⟨2, 5⟩)) false = .ok [] ∧
      hashAt (CheckPoint.cons ⟨3, 3⟩ (.cons ⟨2, 2⟩ (.base ⟨0, 1⟩))).toList 2 = some 2 ∧
      hashAt (CheckPoint.cons ⟨3, 3⟩ (.base ⟨2, 5⟩)).toList 2 = some 5 ∧
      hmLookup ([] : ChangeSet) 2 = none) ∧
    (merge_chains (.cons ⟨7, 3⟩ (.cons ⟨5, 2⟩ (.base ⟨0, 1⟩)))
        (.base ⟨5, 2⟩) false = .ok [] ∧
      hashAt (CheckPoint.cons ⟨7, 3⟩ (.cons ⟨5, 2⟩ (.base ⟨0, 1⟩))).toList 7 = some 3 ∧
      hashAt (CheckPoint.base ⟨5, 2⟩).toList 7 = none ∧
      hashAt (CheckPoint.cons ⟨7, 3⟩ (.cons ⟨5, 2⟩ (.base ⟨0, 1⟩))).toList 5 = some 2 ∧
      hashAt (CheckPoint.base ⟨5, 2⟩).toList 5 = some 2 ∧
      aboveAllAgree (CheckPoint.cons ⟨7, 3⟩ (.cons ⟨5, 2⟩ (.base ⟨0, 1⟩))).toList
        (CheckPoint.base ⟨5, 2⟩).toList 7 ∧
      hmLookup ([] : ChangeSet) 7 = none) := by
  decide

/-- C1 witness: merging `0:1 - 7:2 - 9:3` with the reorg update
`0:1 - 7:4` succeeds; height 7 (differing hashes, above the agreement at 0)
is mapped to the update hash 4 and the original-only height 9 is mapped to
`None`. -/
theorem claim_C1_witness :
    hmLookup [(7, some 4), (9, (none : Option Hash))] 7 = some (some 4) ∧
    hmLookup [(7, some 4), (9, (none : Option Hash))] 9 = some none := by
  have h := claim_C1 c1Orig c1Upd false [(7, some 4), (9, none)]
    (by decide) (by decide) (by decide)
  exact ⟨h.1 ⟨7, 2⟩ (by decide) 4 (by decide) (by decide) (by decide),
    h.2 (by decide) ⟨9, 3⟩ (by decide) (by decide) (by decide)⟩

end Bdk
